import Mathlib

/-!
Verification of the session-manager core of the tidbcloud-skills repository.

The Python source (src/tidbcloud_manager/session_manager.py and the condition
evaluator in src/tidbcloud_manager/secure_executor.py) is shallowly embedded:
strings are lists of characters, JSON-compatible values are a mutual inductive
type, the regex-driven helpers are translated into explicit recursive scans,
and the stateful methods become pure state-passing functions.  External
collaborators (the HTTP/CLI executor, environment expansion, the filesystem)
are passed in as explicit parameters, so a call's outcome is an input of the
model.
-/

namespace S2P

/-! ## Character-level utilities

Python operates on str; we model strings as List Char and keep the real
String values at the API boundary. -/

/-- A character counts for the placeholder-name regex class [A-Za-z0-9_]. -/
def wordChar (c : Char) : Bool :=
  (('a' ≤ c ∧ c ≤ 'z') ∨ ('A' ≤ c ∧ c ≤ 'Z') ∨ ('0' ≤ c ∧ c ≤ '9') ∨ c = '_')

/-- ASCII alphanumeric, the class [A-Za-z0-9]. -/
def alnumChar (c : Char) : Bool :=
  (('a' ≤ c ∧ c ≤ 'z') ∨ ('A' ≤ c ∧ c ≤ 'Z') ∨ ('0' ≤ c ∧ c ≤ '9'))

/-- No brace character occurs: the text can neither open nor close a
{name} placeholder token. -/
def braceFree (s : List Char) : Bool :=
  s.all (fun c => c ≠ '{' ∧ c ≠ '}')

/-- startsList p s holds when p is an initial run of s
(Python str.startswith at the character level). -/
def startsList : List Char → List Char → Bool
  | [], _ => true
  | _ :: _, [] => false
  | p :: ps, c :: cs => p = c && startsList ps cs

/-- occursB p s: p occurs as a contiguous run somewhere inside s
(Python substring membership). -/
def occursB (p : List Char) : List Char → Bool
  | [] => startsList p []
  | c :: cs => startsList p (c :: cs) || occursB p cs

/-- The literal text of a {name} placeholder token. -/
def tokOf (n : List Char) : List Char := '{' :: n ++ ['}']

theorem startsList_iff (p s : List Char) :
    startsList p s = true ↔ ∃ t, p ++ t = s := by
  induction p generalizing s with
  | nil => simp [startsList]
  | cons a ps ih =>
    cases s with
    | nil => simp [startsList]
    | cons c cs =>
      simp only [startsList, Bool.and_eq_true, decide_eq_true_eq, ih]
      constructor
      · rintro ⟨rfl, t, rfl⟩; exact ⟨t, rfl⟩
      · rintro ⟨t, h⟩
        injection h with h1 h2
        exact ⟨h1, t, h2⟩

theorem occursB_iff (p s : List Char) :
    occursB p s = true ↔ ∃ a b, s = a ++ p ++ b := by
  induction s with
  | nil =>
    simp only [occursB, startsList_iff]
    constructor
    · rintro ⟨t, h⟩
      exact ⟨[], t, by simp [h.symm]⟩
    · rintro ⟨a, b, h⟩
      cases a with
      | nil => exact ⟨b, by simpa using h.symm⟩
      | cons x xs => simp at h
  | cons c cs ih =>
    simp only [occursB, Bool.or_eq_true, startsList_iff, ih]
    constructor
    · rintro (⟨t, h⟩ | ⟨a, b, h⟩)
      · exact ⟨[], t, by simp [h.symm]⟩
      · exact ⟨c :: a, b, by simp [h]⟩
    · rintro ⟨a, b, h⟩
      cases a with
      | nil => exact Or.inl ⟨b, by simpa using h.symm⟩
      | cons x xs =>
        right
        injection h with h1 h2
        exact ⟨xs, b, h2⟩

/-! ## The placeholder scanner

Embedding of re.findall applied to the pattern of an opening brace, one or
more non-closing-brace characters, and a closing brace, as used by
SessionManager.substitute_variables and find_required_variables.  At an
opening brace the regex greedily takes the run of non-closing-brace
characters; the match succeeds exactly when that run is nonempty and is
followed by a closing brace.  On failure the scan advances one character. -/

/-- Fuel-indexed scanner body; every step consumes at least one character,
so any fuel of at least the string's length gives the fixpoint.  The fuel
keeps the definition structurally recursive, hence kernel-evaluable. -/
def findNamesF : Nat → List Char → List (List Char)
  | 0, _ => []
  | _ + 1, [] => []
  | fuel + 1, c :: r =>
    if c = '{' then
      let run := r.takeWhile (fun d => d ≠ '}')
      if run ≠ [] ∧ run.length < r.length then
        run :: findNamesF fuel (r.drop (run.length + 1))
      else
        findNamesF fuel r
    else
      findNamesF fuel r

/-- All placeholder names found in a string, in match order, duplicates kept
(re.findall of the brace placeholder pattern). -/
def findNames (s : List Char) : List (List Char) := findNamesF s.length s

theorem findNamesF_irrel : ∀ (fuel fuel' : Nat) (s : List Char),
    s.length ≤ fuel → s.length ≤ fuel' → findNamesF fuel s = findNamesF fuel' s := by
  intro fuel
  induction fuel with
  | zero =>
    intro fuel' s hs _
    have : s = [] := List.eq_nil_of_length_eq_zero (Nat.le_zero.1 hs)
    subst this
    cases fuel' <;> rfl
  | succ fuel ih =>
    intro fuel' s hs hs'
    cases s with
    | nil => cases fuel' <;> rfl
    | cons c r =>
      cases fuel' with
      | zero => simp at hs'
      | succ fuel2 =>
        simp only [List.length_cons] at hs hs'
        simp only [findNamesF]
        by_cases hc : c = '{'
        · simp only [hc, if_true]
          by_cases hrun : (r.takeWhile (fun d => d ≠ '}')) ≠ [] ∧
              (r.takeWhile (fun d => d ≠ '}')).length < r.length
          · rw [if_pos hrun, if_pos hrun]
            have hd : (r.drop ((r.takeWhile (fun d => d ≠ '}')).length + 1)).length ≤ r.length := by
              simp only [List.length_drop]
              omega
            rw [ih fuel2 _ (by omega) (by omega)]
          · rw [if_neg hrun, if_neg hrun, ih fuel2 r (by omega) (by omega)]
        · rw [if_neg hc, if_neg hc, ih fuel2 r (by omega) (by omega)]

theorem findNames_cons (c : Char) (r : List Char) :
    findNames (c :: r) =
      (if c = '{' then
        (if (r.takeWhile (fun d => d ≠ '}')) ≠ [] ∧
            (r.takeWhile (fun d => d ≠ '}')).length < r.length then
          (r.takeWhile (fun d => d ≠ '}')) ::
            findNames (r.drop ((r.takeWhile (fun d => d ≠ '}')).length + 1))
        else findNames r)
      else findNames r) := by
  show findNamesF (r.length + 1) (c :: r) = _
  simp only [findNamesF, findNames]
  by_cases hc : c = '{'
  · simp only [hc, if_true]
    by_cases hrun : (r.takeWhile (fun d => d ≠ '}')) ≠ [] ∧
        (r.takeWhile (fun d => d ≠ '}')).length < r.length
    · rw [if_pos hrun, if_pos hrun,
        findNamesF_irrel r.length _ _ (by simp only [List.length_drop]; omega) (le_refl _)]
    · rw [if_neg hrun, if_neg hrun]
  · rw [if_neg hc, if_neg hc]

/-- Fuel-indexed replace body. -/
def replaceAllF : Nat → List Char → List Char → List Char → List Char
  | 0, _, _, _ => []
  | _ + 1, [], _, _ => []
  | fuel + 1, c :: r, pat, rep =>
    if pat ≠ [] ∧ startsList pat (c :: r) then
      rep ++ replaceAllF fuel ((c :: r).drop pat.length) pat rep
    else
      c :: replaceAllF fuel r pat rep

/-- Python str.replace: replace every non-overlapping occurrence of pat,
scanning left to right.  Only ever used with a nonempty pat (a full
placeholder token). -/
def replaceAll (s pat rep : List Char) : List Char := replaceAllF s.length s pat rep

theorem replaceAllF_irrel : ∀ (fuel fuel' : Nat) (s pat rep : List Char),
    s.length ≤ fuel → s.length ≤ fuel' →
    replaceAllF fuel s pat rep = replaceAllF fuel' s pat rep := by
  intro fuel
  induction fuel with
  | zero =>
    intro fuel' s pat rep hs _
    have : s = [] := List.eq_nil_of_length_eq_zero (Nat.le_zero.1 hs)
    subst this
    cases fuel' <;> rfl
  | succ fuel ih =>
    intro fuel' s pat rep hs hs'
    cases s with
    | nil => cases fuel' <;> rfl
    | cons c r =>
      cases fuel' with
      | zero => simp at hs'
      | succ fuel2 =>
        simp only [List.length_cons] at hs hs'
        simp only [replaceAllF]
        by_cases hmatch : pat ≠ [] ∧ startsList pat (c :: r) = true
        · rw [if_pos hmatch, if_pos hmatch]
          have hlp : 0 < pat.length := List.length_pos.2 hmatch.1
          have hd : ((c :: r).drop pat.length).length ≤ r.length := by
            simp only [List.length_drop, List.length_cons]
            omega
          rw [ih fuel2 _ pat rep (by omega) (by omega)]
        · rw [if_neg hmatch, if_neg hmatch, ih fuel2 r pat rep (by omega) (by omega)]

theorem replaceAll_cons (c : Char) (r pat rep : List Char) :
    replaceAll (c :: r) pat rep =
      (if pat ≠ [] ∧ startsList pat (c :: r) then
        rep ++ replaceAll ((c :: r).drop pat.length) pat rep
      else
        c :: replaceAll r pat rep) := by
  show replaceAllF (r.length + 1) (c :: r) pat rep = _
  simp only [replaceAllF, replaceAll]
  by_cases hmatch : pat ≠ [] ∧ startsList pat (c :: r) = true
  · rw [if_pos hmatch, if_pos hmatch]
    have hlp : 0 < pat.length := List.length_pos.2 hmatch.1
    rw [replaceAllF_irrel r.length _ _ pat rep
      (by simp only [List.length_drop, List.length_cons]; omega) (le_refl _)]
  · rw [if_neg hmatch, if_neg hmatch]

/-! ## JSON-compatible values

Python request/response structures are arbitrary nestings of dicts, lists
and scalars.  A mutual inductive keeps every traversal structurally
recursive.  Python None is JVal.null; floats do not occur in the claims and
are not modelled. -/

mutual
inductive JVal : Type where
  | null : JVal
  | bool (b : Bool) : JVal
  | num (n : Int) : JVal
  | str (s : String) : JVal
  | arr (xs : JArr) : JVal
  | obj (fs : JFields) : JVal
  deriving DecidableEq
inductive JArr : Type where
  | nil : JArr
  | cons (hd : JVal) (tl : JArr) : JArr
  deriving DecidableEq
inductive JFields : Type where
  | nil : JFields
  | cons (k : String) (v : JVal) (tl : JFields) : JFields
  deriving DecidableEq
end

def JArr.toList : JArr → List JVal
  | .nil => []
  | .cons x tl => x :: JArr.toList tl

def JArr.len : JArr → Nat
  | .nil => 0
  | .cons _ tl => JArr.len tl + 1

/-- Zero-based indexing into a JSON sequence. -/
def JArr.get? : JArr → Nat → Option JVal
  | .nil, _ => none
  | .cons x _, 0 => some x
  | .cons _ tl, n + 1 => JArr.get? tl n

def JFields.entries : JFields → List (String × JVal)
  | .nil => []
  | .cons k v tl => (k, v) :: JFields.entries tl

def JFields.keys (fs : JFields) : List String :=
  fs.entries.map Prod.fst

/-- Python dict lookup (keys are unique in real dicts; the model takes the
first binding). -/
def JFields.get : JFields → String → Option JVal
  | .nil, _ => none
  | .cons k v tl, k' => if k = k' then some v else JFields.get tl k'

/-- Python dict assignment: overwrite in place when the key exists, append
otherwise (insertion order is preserved). -/
def JFields.set : JFields → String → JVal → JFields
  | .nil, k, v => .cons k v .nil
  | .cons k0 v0 tl, k, v =>
    if k0 = k then .cons k0 v tl else .cons k0 v0 (JFields.set tl k v)

/-! ## Python stringification

str(x) as used by substitute_variables and the condition evaluator.  For
str/int/bool/None, str and repr agree with Python exactly; for containers
the quoting and escaping details of repr are simplified (no claim depends
on them). -/

mutual
def pyRepr : JVal → String
  | .null => "None"
  | .bool b => if b then "True" else "False"
  | .num n => toString n
  | .str s => "'" ++ s ++ "'"
  | .arr xs => "[" ++ pyReprArr xs ++ "]"
  | .obj fs => "\x7b" ++ pyReprFields fs ++ "\x7d"
def pyReprArr : JArr → String
  | .nil => ""
  | .cons x .nil => pyRepr x
  | .cons x (.cons y tl) => pyRepr x ++ ", " ++ pyReprArr (.cons y tl)
def pyReprFields : JFields → String
  | .nil => ""
  | .cons k v .nil => "'" ++ k ++ "': " ++ pyRepr v
  | .cons k v (.cons k' v' tl) => "'" ++ k ++ "': " ++ pyRepr v ++ ", " ++ pyReprFields (.cons k' v' tl)
end

def pyStr (v : JVal) : String :=
  match v with
  | .str s => s
  | v => pyRepr v

/-! ## Variable substitution and required-variable collection

SessionManager.substitute_variables and find_required_variables. -/

/-- One string's substitution pass: find all placeholder names, then for
each name bound in the store replace every occurrence of its token with the
stringified value (later names act on the already-rewritten string). -/
def substStr (vars : JFields) (s : List Char) : List Char :=
  (findNames s).foldl
    (fun r n =>
      match vars.get (String.mk n) with
      | some v => replaceAll r (tokOf n) (pyStr v).data
      | none => r)
    s

mutual
def substitute (vars : JFields) : JVal → JVal
  | .str s => .str (String.mk (substStr vars s.data))
  | .obj fs => .obj (substituteFields vars fs)
  | .arr xs => .arr (substituteArr vars xs)
  | v => v
def substituteArr (vars : JFields) : JArr → JArr
  | .nil => .nil
  | .cons x tl => .cons (substitute vars x) (substituteArr vars tl)
def substituteFields (vars : JFields) : JFields → JFields
  | .nil => .nil
  | .cons k v tl => .cons k (substitute vars v) (substituteFields vars tl)
end

mutual
/-- All placeholder names referenced inside string values of a structure
(find_required_variables builds a set; the model keeps a list and claims
only use membership). -/
def findRequired : JVal → List (List Char)
  | .str s => findNames s.data
  | .obj fs => findRequiredFields fs
  | .arr xs => findRequiredArr xs
  | _ => []
def findRequiredArr : JArr → List (List Char)
  | .nil => []
  | .cons x tl => findRequired x ++ findRequiredArr tl
def findRequiredFields : JFields → List (List Char)
  | .nil => []
  | .cons _ v tl => findRequired v ++ findRequiredFields tl
end

/-! ## Redaction filter

redact_sensitive_values and its two regexes.  The sensitive-key regex is a
case-insensitive substring search for password, private key (with optional
underscore or hyphen), token, secret or pwd; the placeholder-value regex is
an anchored match of an opening brace, one or more word characters, and a
closing brace. -/

def lowerDigitChar (c : Char) : Bool :=
  ('a' ≤ c ∧ c ≤ 'z') ∨ ('0' ≤ c ∧ c ≤ '9')

def upperChar (c : Char) : Bool :=
  'A' ≤ c ∧ c ≤ 'Z'

/-- The sensitive-key test: case-insensitive search of the alternation
password, private[_-]?key, token, secret, pwd anywhere in the key. -/
def sensitiveKeyB (k : String) : Bool :=
  let l := (k.data.map Char.toLower)
  occursB "password".data l || occursB "private_key".data l ||
  occursB "private-key".data l || occursB "privatekey".data l ||
  occursB "token".data l || occursB "secret".data l || occursB "pwd".data l

/-- First step of _to_placeholder_name: collapse every maximal run of
non-alphanumeric characters into a single underscore. -/
def collapseNonAlnum : List Char → List Char
  | [] => []
  | c :: r =>
    if alnumChar c then c :: collapseNonAlnum r
    else '_' :: collapseNonAlnum (r.dropWhile (fun d => ¬ alnumChar d))
termination_by s => s.length
decreasing_by
· simp
· simp only [List.length_cons]
  exact Nat.lt_succ_of_le (List.dropWhile_suffix _).sublist.length_le

/-- Second step: insert an underscore at every boundary between a lowercase
letter or digit and an uppercase letter (the camel-case split regex). -/
def camelSplit : List Char → List Char
  | x :: y :: r =>
    if lowerDigitChar x ∧ upperChar y then x :: '_' :: camelSplit (y :: r)
    else x :: camelSplit (y :: r)
  | l => l

/-- _to_placeholder_name: collapse, camel-split, strip underscores from both
ends, lowercase, with the fixed fallback for an empty result. -/
def toPlaceholderName (k : String) : String :=
  let l1 := collapseNonAlnum k.data
  let l2 := camelSplit l1
  let l3 := ((l2.dropWhile (fun c => c = '_')).reverse.dropWhile (fun c => c = '_')).reverse
  let l4 := l3.map Char.toLower
  if l4 = [] then "redacted" else String.mk l4

/-- The placeholder token written in place of a sensitive value. -/
def placeholderTok (k : String) : String :=
  "\x7b" ++ toPlaceholderName k ++ "\x7d"

/-- Tail of the placeholder-shape test: one or more word characters followed
by the closing brace at the anchor.  The end anchor of the pattern matches at
the end of the string or just before a newline that ends the string, so the
brace may also be followed by exactly one final newline. -/
def shapeTail : List Char → Bool
  | [] => false
  | ['}'] => true
  | ['}', '\n'] => true
  | c :: r => wordChar c && shapeTail r

/-- _PLACEHOLDER_VALUE_RE.match: an opening brace, one or more word
characters, and a closing brace at the dollar anchor — i.e. at the end of
the string or before one trailing newline (re.match of an
anchored pattern, not a full exact match). -/
def placeholderShapeB (s : String) : Bool :=
  match s.data with
  | '{' :: c :: r => wordChar c && shapeTail (c :: r)
  | _ => false

/-- The value written under a sensitive key: a string that already has the
placeholder shape is kept, anything else becomes the deterministic
placeholder derived from the key. -/
def redactSensitiveVal (k : String) (v : JVal) : JVal :=
  match v with
  | .str s => if placeholderShapeB s then .str s else .str (placeholderTok k)
  | _ => .str (placeholderTok k)

mutual
def redact : JVal → JVal
  | .obj fs => .obj (redactFields fs)
  | .arr xs => .arr (redactArr xs)
  | v => v
def redactArr : JArr → JArr
  | .nil => .nil
  | .cons x tl => .cons (redact x) (redactArr tl)
def redactFields : JFields → JFields
  | .nil => .nil
  | .cons k v tl =>
    if sensitiveKeyB k then .cons k (redactSensitiveVal k v) (redactFields tl)
    else .cons k (redact v) (redactFields tl)
end

mutual
/-- Some key somewhere in the structure matches the sensitive-key regex. -/
def hasSensitiveKey : JVal → Bool
  | .obj fs => hasSensitiveKeyFields fs
  | .arr xs => hasSensitiveKeyArr xs
  | _ => false
def hasSensitiveKeyArr : JArr → Bool
  | .nil => false
  | .cons x tl => hasSensitiveKey x || hasSensitiveKeyArr tl
def hasSensitiveKeyFields : JFields → Bool
  | .nil => false
  | .cons k v tl => sensitiveKeyB k || hasSensitiveKey v || hasSensitiveKeyFields tl
end

/-! ## Redaction lemmas -/

/-- Re-redacting a value that sits under a sensitive key changes nothing:
if the first pass kept a placeholder-shaped string the second keeps it too,
and if the first pass wrote the placeholder token the second writes the very
same token whether or not it recognises its shape. -/
theorem redactSensitiveVal_idem (k : String) (v : JVal) :
    redactSensitiveVal k (redactSensitiveVal k v) = redactSensitiveVal k v := by
  have htok : redactSensitiveVal k (.str (placeholderTok k)) = .str (placeholderTok k) := by
    simp only [redactSensitiveVal]
    split <;> rfl
  cases v with
  | str s =>
    by_cases h : placeholderShapeB s
    · simp [redactSensitiveVal, h]
    · simp only [redactSensitiveVal, h, Bool.false_eq_true, if_false]
      exact htok
  | null => exact htok
  | bool b => exact htok
  | num n => exact htok
  | arr xs => exact htok
  | obj fs => exact htok

mutual
theorem redact_idem : ∀ v : JVal, redact (redact v) = redact v
  | .null => rfl
  | .bool _ => rfl
  | .num _ => rfl
  | .str _ => rfl
  | .arr xs => by simp only [redact, redactArr_idem xs]
  | .obj fs => by simp only [redact, redactFields_idem fs]
theorem redactArr_idem : ∀ xs : JArr, redactArr (redactArr xs) = redactArr xs
  | .nil => rfl
  | .cons x tl => by simp only [redactArr, redact_idem x, redactArr_idem tl]
theorem redactFields_idem : ∀ fs : JFields, redactFields (redactFields fs) = redactFields fs
  | .nil => rfl
  | .cons k v tl => by
    by_cases hk : sensitiveKeyB k
    · simp [redactFields, hk, redactSensitiveVal_idem, redactFields_idem tl]
    · simp [redactFields, hk, redact_idem v, redactFields_idem tl]
end

mutual
theorem redact_of_not_sensitive : ∀ v : JVal, hasSensitiveKey v = false → redact v = v
  | .null, _ => rfl
  | .bool _, _ => rfl
  | .num _, _ => rfl
  | .str _, _ => rfl
  | .arr xs, h => by
    simp only [hasSensitiveKey] at h
    simp only [redact, redactArr_of_not_sensitive xs h]
  | .obj fs, h => by
    simp only [hasSensitiveKey] at h
    simp only [redact, redactFields_of_not_sensitive fs h]
theorem redactArr_of_not_sensitive : ∀ xs : JArr, hasSensitiveKeyArr xs = false → redactArr xs = xs
  | .nil, _ => rfl
  | .cons x tl, h => by
    simp only [hasSensitiveKeyArr, Bool.or_eq_false_iff] at h
    simp only [redactArr, redact_of_not_sensitive x h.1, redactArr_of_not_sensitive tl h.2]
theorem redactFields_of_not_sensitive :
    ∀ fs : JFields, hasSensitiveKeyFields fs = false → redactFields fs = fs
  | .nil, _ => rfl
  | .cons k v tl, h => by
    simp only [hasSensitiveKeyFields, Bool.or_eq_false_iff] at h
    simp [redactFields, h.1.1, redact_of_not_sensitive v h.1.2,
      redactFields_of_not_sensitive tl h.2]
end

/-- Claim C7: redact is idempotent (redact (redact x) = redact x for every
value); redact never changes a value whose keys stay outside the
case-insensitive sensitive-fragment set, and at a non-sensitive key it only
recurses; under a sensitive key a value that already has the placeholder
shape is kept unchanged, and any other value is replaced by the
deterministic placeholder derived from the key name. -/
theorem claim_C7 :
    (∀ v : JVal, redact (redact v) = redact v) ∧
    (∀ v : JVal, hasSensitiveKey v = false → redact v = v) ∧
    (∀ (k : String) (v : JVal) (tl : JFields), sensitiveKeyB k = false →
      redactFields (JFields.cons k v tl) = JFields.cons k (redact v) (redactFields tl)) ∧
    (∀ (k s : String) (tl : JFields), sensitiveKeyB k = true → placeholderShapeB s = true →
      redactFields (JFields.cons k (.str s) tl) = JFields.cons k (.str s) (redactFields tl)) ∧
    (∀ (k : String) (v : JVal) (tl : JFields), sensitiveKeyB k = true →
      (∀ s : String, v = JVal.str s → placeholderShapeB s = false) →
      redactFields (JFields.cons k v tl) =
        JFields.cons k (.str (placeholderTok k)) (redactFields tl)) := by
  refine ⟨redact_idem, redact_of_not_sensitive, ?_, ?_, ?_⟩
  · intro k v tl hk
    simp [redactFields, hk]
  · intro k s tl hk hs
    simp [redactFields, hk, redactSensitiveVal, hs]
  · intro k v tl hk hv
    cases v with
    | str s => simp [redactFields, hk, redactSensitiveVal, hv s rfl]
    | null => simp [redactFields, hk, redactSensitiveVal]
    | bool b => simp [redactFields, hk, redactSensitiveVal]
    | num n => simp [redactFields, hk, redactSensitiveVal]
    | arr xs => simp [redactFields, hk, redactSensitiveVal]
    | obj fs => simp [redactFields, hk, redactSensitiveVal]

/-- Concrete instantiation of claim C7 at a non-sensitive mapping, a kept
placeholder under a password key (with and without the trailing newline the
end anchor tolerates), and a replaced number under a token key. -/
theorem claim_C7_witness :
    redact (.obj (JFields.cons "host" (.str "h") .nil)) =
      .obj (JFields.cons "host" (.str "h") .nil) ∧
    redactFields (JFields.cons "password" (.str "{pwd}") .nil) =
      JFields.cons "password" (.str "{pwd}") .nil ∧
    redactFields (JFields.cons "password" (.str "{pwd}\n") .nil) =
      JFields.cons "password" (.str "{pwd}\n") .nil ∧
    redactFields (JFields.cons "token" (.num 5) .nil) =
      JFields.cons "token" (.str (placeholderTok "token")) .nil := by
  refine ⟨?_, ?_, ?_, ?_⟩
  · exact claim_C7.2.1 _ (by decide)
  · have h := claim_C7.2.2.2.1 "password" "{pwd}" .nil (by decide) (by decide)
    simpa using h
  · have h := claim_C7.2.2.2.1 "password" "{pwd}\n" .nil (by decide) (by decide)
    simpa using h
  · have h := claim_C7.2.2.2.2 "token" (.num 5) .nil (by decide)
      (fun s hs => by cases hs)
    simpa using h

/-! ## Path language

SessionManager.extract_value and _parse_path.  A path is split on dots;
a segment containing an opening bracket contributes its base (when
nonempty) and the integer between the first opening bracket and the first
closing bracket of the segment.  Resolution walks dicts by key and lists
by index and returns Python None -- which is the same value as JSON null,
modelled by JVal.null -- as soon as anything fails. -/

inductive PathPart : Type where
  | key (k : String)
  | idx (i : Nat)
  deriving DecidableEq

/-- Python str.split on the dot character. -/
def splitDot : List Char → List (List Char)
  | [] => [[]]
  | c :: r =>
    if c = '.' then [] :: splitDot r
    else
      match splitDot r with
      | [] => [[c]]
      | g :: gs => (c :: g) :: gs

/-- Position of the first occurrence of a character. -/
def firstIdx (t : Char) : List Char → Option Nat
  | [] => none
  | c :: r => if c = t then some 0 else (firstIdx t r).map (· + 1)

/-- Python int() restricted to the plain digit strings the path grammar
produces; anything that would make int() raise is none (the exception is
unreachable under the grammar hypotheses of the theorems below). -/
def parseNatDigits (l : List Char) : Option Nat :=
  if l ≠ [] ∧ l.all (fun c => '0' ≤ c ∧ c ≤ '9') then
    some (l.foldl (fun a c => a * 10 + (c.toNat - 48)) 0)
  else none

/-- One dot-segment of _parse_path. -/
def parseSeg (seg : List Char) : Option (List PathPart) :=
  if seg.any (fun c => c = '[') then
    let base := seg.takeWhile (fun d => d ≠ '[')
    match firstIdx ']' seg with
    | none => none
    | some j =>
      let idxStr := (seg.drop (base.length + 1)).take (j - (base.length + 1))
      match parseNatDigits idxStr with
      | none => none
      | some n =>
        some ((if base ≠ [] then [PathPart.key (String.mk base)] else []) ++ [PathPart.idx n])
  else some [PathPart.key (String.mk seg)]

/-- _parse_path over the whole dotted path. -/
def parsePathStr (p : String) : Option (List PathPart) :=
  (splitDot p.data).foldr
    (fun seg acc =>
      match parseSeg seg, acc with
      | some ps, some rest => some (ps ++ rest)
      | _, _ => none)
    (some [])

/-- The resolution loop of extract_value: ints index lists (in bounds
only), strings index dicts (present keys only); everything else is the
not-found result, which in Python is the same None as a JSON null. -/
def walkParts : JVal → List PathPart → JVal
  | cur, [] => cur
  | cur, .idx i :: rest =>
    match cur with
    | .arr xs =>
      match xs.get? i with
      | some v => walkParts v rest
      | none => .null
    | _ => .null
  | cur, .key k :: rest =>
    match cur with
    | .obj fs =>
      match fs.get k with
      | some v => walkParts v rest
      | none => .null
    | _ => .null

/-- extract_value: strip one leading body. marker, parse, walk. -/
def extractValue (response : JVal) (evalPath : String) : JVal :=
  let p := if startsList "body.".data evalPath.data
           then String.mk (evalPath.data.drop 5) else evalPath
  match parsePathStr p with
  | some parts => walkParts response parts
  | none => .null

/-- One save_config entry.  The Python dict is p with keys key and eval;
entries where either is missing or empty are skipped by the falsiness
check of extract_and_save. -/
structure SaveEntry : Type where
  key : String
  evalPath : String
  deriving DecidableEq

/-- extract_and_save: fold the placeholder entries, writing each extracted
non-None value into the variable store and the attempt's saved dict.
Returns (updated store, saved). -/
def saveStep (body : JVal) (acc : JFields × JFields) (e : SaveEntry) : JFields × JFields :=
  if e.key ≠ "" ∧ e.evalPath ≠ "" then
    let value := extractValue body e.evalPath
    if value ≠ .null then (acc.1.set e.key value, acc.2.set e.key value)
    else acc
  else acc

def extractAndSave (vars : JFields) (body : JVal) (cfg : Option (List SaveEntry)) :
    JFields × JFields :=
  match cfg with
  | none => (vars, .nil)
  | some entries => entries.foldl (saveStep body) (vars, .nil)

/-! ## Spec-side path grammar

The claim quantifies over paths built from dot-separated segments, each a
bare key or key[idx].  Keys are nonempty and contain no dot or bracket
characters; indices are rendered as canonical decimal literals. -/

inductive Seg : Type where
  | bare (k : String)
  | indexed (k : String) (i : Nat)
  deriving DecidableEq

def segOkChar (c : Char) : Bool := c ≠ '.' ∧ c ≠ '[' ∧ c ≠ ']'

def wfSeg : Seg → Bool
  | .bare k => (!k.data.isEmpty) && k.data.all segOkChar
  | .indexed k _ => (!k.data.isEmpty) && k.data.all segOkChar

def wfSegs (segs : List Seg) : Bool := segs.all wfSeg

def digitChar : Nat → Char
  | 0 => '0' | 1 => '1' | 2 => '2' | 3 => '3' | 4 => '4'
  | 5 => '5' | 6 => '6' | 7 => '7' | 8 => '8' | _ => '9'

/-- Canonical decimal rendering of a natural number. -/
def natDigits (n : Nat) : List Char :=
  if n = 0 then ['0'] else (Nat.digits 10 n).reverse.map digitChar

def segChars : Seg → List Char
  | .bare k => k.data
  | .indexed k i => k.data ++ '[' :: (natDigits i ++ [']'])

/-- Dot-join of rendered segments. -/
def joinDots : List (List Char) → List Char
  | [] => []
  | [x] => x
  | x :: y :: r => x ++ '.' :: joinDots (y :: r)

def renderPath (segs : List Seg) : String :=
  String.mk (joinDots (segs.map segChars))

/-- The part list _parse_path produces for a well-formed segment list. -/
def toParts : List Seg → List PathPart
  | [] => []
  | .bare k :: r => .key k :: toParts r
  | .indexed k i :: r => .key k :: .idx i :: toParts r

/-- Addressing, written from the claim: a bare key looks up a mapping, an
indexed segment looks up a mapping and then indexes a sequence; any key
absence, out-of-bounds index or kind mismatch is a not-found result. -/
def specResolve : JVal → List Seg → Option JVal
  | cur, [] => some cur
  | cur, .bare k :: rest =>
    match cur with
    | .obj fs =>
      match fs.get k with
      | some v => specResolve v rest
      | none => none
    | _ => none
  | cur, .indexed k i :: rest =>
    match cur with
    | .obj fs =>
      match fs.get k with
      | some (.arr xs) =>
        (match xs.get? i with
         | some v => specResolve v rest
         | none => none)
      | some _ => none
      | none => none
    | _ => none

/-- The body-root marker of the path language at segment level: a leading
bare body segment with at least one following segment is stripped. -/
def stripBody : List Seg → List Seg
  | .bare k :: rest => if k = "body" ∧ rest ≠ [] then rest else .bare k :: rest
  | segs => segs

/-! ### Digit-rendering lemmas -/

theorem digitChar_lt10 (d : Nat) (hd : d < 10) :
    ('0' ≤ digitChar d ∧ digitChar d ≤ '9') ∧ (digitChar d).toNat - 48 = d := by
  interval_cases d <;> exact ⟨by decide, by decide⟩

theorem digitChar_ne (d : Nat) (hd : d < 10) :
    digitChar d ≠ '.' ∧ digitChar d ≠ '[' ∧ digitChar d ≠ ']' ∧ digitChar d ≠ '{' ∧
      digitChar d ≠ '}' := by
  interval_cases d <;> exact ⟨by decide, by decide, by decide, by decide, by decide⟩

theorem foldr_digits_eq_ofDigits (L : List Nat) (hL : ∀ d ∈ L, d < 10) :
    L.foldr (fun d a => a * 10 + ((digitChar d).toNat - 48)) 0 = Nat.ofDigits 10 L := by
  induction L with
  | nil => simp [Nat.ofDigits]
  | cons d L ih =>
    have hd := (digitChar_lt10 d (hL d (by simp))).2
    simp only [List.foldr_cons, Nat.ofDigits_cons,
      ih (fun x hx => hL x (by simp [hx]))]
    omega

theorem parseNatDigits_natDigits (n : Nat) : parseNatDigits (natDigits n) = some n := by
  by_cases hn : n = 0
  · subst hn; decide
  · have hne : Nat.digits 10 n ≠ [] := Nat.digits_ne_nil_iff_ne_zero.2 hn
    have hlt : ∀ d ∈ Nat.digits 10 n, d < 10 := fun d hd =>
      Nat.digits_lt_base (by norm_num) hd
    have hall : ((Nat.digits 10 n).reverse.map digitChar).all
        (fun c => '0' ≤ c ∧ c ≤ '9') = true := by
      rw [List.all_eq_true]
      intro c hc
      simp only [List.mem_map, List.mem_reverse] at hc
      obtain ⟨d, hd, rfl⟩ := hc
      have := (digitChar_lt10 d (hlt d hd)).1
      simpa [decide_eq_true_eq] using this
    have hnil : (Nat.digits 10 n).reverse.map digitChar ≠ [] := by
      simp [hne]
    rw [natDigits, if_neg hn, parseNatDigits, if_pos ⟨hnil, hall⟩]
    rw [List.foldl_map, List.foldl_reverse]
    have : (Nat.digits 10 n).foldr (fun x a => a * 10 + ((digitChar x).toNat - 48)) 0
        = Nat.ofDigits 10 (Nat.digits 10 n) := foldr_digits_eq_ofDigits _ hlt
    rw [this]
    have hdn : Nat.ofDigits 10 (Nat.digits 10 n) = n := by
      exact_mod_cast Nat.ofDigits_digits 10 n
    rw [hdn]

theorem natDigits_all_digit (n : Nat) :
    ∀ c ∈ natDigits n, '0' ≤ c ∧ c ≤ '9' := by
  by_cases hn : n = 0
  · subst hn; intro c hc; simp [natDigits] at hc; subst hc; exact ⟨by decide, by decide⟩
  · intro c hc
    simp only [natDigits, if_neg hn, List.mem_map, List.mem_reverse] at hc
    obtain ⟨d, hd, rfl⟩ := hc
    exact (digitChar_lt10 d (Nat.digits_lt_base (by norm_num) hd)).1

theorem digit_char_ne (c : Char) (hc : '0' ≤ c ∧ c ≤ '9') :
    c ≠ '.' ∧ c ≠ '[' ∧ c ≠ ']' ∧ c ≠ '{' ∧ c ≠ '}' := by
  obtain ⟨h1, h2⟩ := hc
  refine ⟨?_, ?_, ?_, ?_, ?_⟩ <;>
    (rintro rfl; revert h1 h2; decide)

/-! ### Split and parse lemmas -/

theorem splitDot_cons_of_all (p : List Char) (hp : ∀ c ∈ p, c ≠ '.') :
    ∀ t g gs, splitDot t = g :: gs → splitDot (p ++ t) = (p ++ g) :: gs := by
  induction p with
  | nil => intro t g gs ht; simpa using ht
  | cons c p ih =>
    intro t g gs ht
    have hc : c ≠ '.' := hp c (by simp)
    have h2 := ih (fun d hd => hp d (by simp [hd])) t g gs ht
    simp only [List.cons_append, splitDot, List.append_eq, if_neg hc, h2]

theorem splitDot_shape (s : List Char) : ∃ g gs, splitDot s = g :: gs := by
  induction s with
  | nil => exact ⟨[], [], rfl⟩
  | cons c r ih =>
    obtain ⟨g, gs, hg⟩ := ih
    by_cases hc : c = '.'
    · exact ⟨[], splitDot r, by simp [splitDot, hc]⟩
    · exact ⟨c :: g, gs, by simp [splitDot, hc, hg]⟩

theorem splitDot_dotfree (p : List Char) (hp : ∀ c ∈ p, c ≠ '.') :
    splitDot p = [p] := by
  have := splitDot_cons_of_all p hp [] [] [] rfl
  simpa using this

theorem splitDot_joinDots (parts : List (List Char)) (hne : parts ≠ [])
    (hp : ∀ p ∈ parts, ∀ c ∈ p, c ≠ '.') :
    splitDot (joinDots parts) = parts := by
  induction parts with
  | nil => simp at hne
  | cons p rest ih =>
    cases rest with
    | nil => exact splitDot_dotfree p (hp p (by simp))
    | cons q rest' =>
      have hrec := ih (by simp) (fun x hx c hc => hp x (List.mem_cons_of_mem _ hx) c hc)
      have hdot : splitDot ('.' :: joinDots (q :: rest')) = [] :: splitDot (joinDots (q :: rest')) := by
        simp [splitDot]
      rw [joinDots]
      rw [splitDot_cons_of_all p (hp p (by simp)) _ _ _ (by rw [hdot, hrec])]
      simp

theorem takeWhile_append_all (p : Char → Bool) (a b : List Char) (ha : ∀ c ∈ a, p c = true) :
    (a ++ b).takeWhile p = a ++ b.takeWhile p := by
  induction a with
  | nil => simp
  | cons c r ih =>
    simp only [List.cons_append, List.takeWhile_cons, ha c (by simp), if_true,
      ih (fun d hd => ha d (by simp [hd]))]

theorem firstIdx_append_of_not (t : Char) (a b : List Char) (ha : ∀ c ∈ a, c ≠ t) :
    firstIdx t (a ++ b) = (firstIdx t b).map (· + a.length) := by
  induction a with
  | nil => simp
  | cons c r ih =>
    have hc : c ≠ t := ha c (by simp)
    have h2 := ih (fun d hd => ha d (by simp [hd]))
    simp only [List.cons_append, firstIdx, List.append_eq, if_neg hc, h2,
      List.length_cons]
    cases firstIdx t b with
    | none => rfl
    | some v =>
      simp only [Option.map_some']
      exact congrArg some (by omega)

theorem parseSeg_bareK (k : String) (hk : wfSeg (.bare k) = true) :
    parseSeg k.data = some [PathPart.key k] := by
  simp only [wfSeg, Bool.and_eq_true, List.all_eq_true] at hk
  have hnolb : k.data.any (fun c => c = '[') = false := by
    rw [List.any_eq_false]
    intro c hc
    have := hk.2 c hc
    simp only [segOkChar, decide_eq_true_eq] at this
    simp [this.2.1]
  rw [parseSeg]
  simp only [hnolb, Bool.false_eq_true, if_false]

theorem parseSeg_indexedK (k : String) (i : Nat) (hk : wfSeg (.indexed k i) = true) :
    parseSeg (segChars (.indexed k i)) = some [PathPart.key k, PathPart.idx i] := by
  simp only [wfSeg, Bool.and_eq_true, List.all_eq_true] at hk
  have hkchars : ∀ c ∈ k.data, c ≠ '.' ∧ c ≠ '[' ∧ c ≠ ']' := by
    intro c hc
    have := hk.2 c hc
    simpa [segOkChar, decide_eq_true_eq] using this
  have hne : k.data ≠ [] := by
    intro h
    rw [h] at hk
    simp at hk
  have hdig : ∀ c ∈ natDigits i, c ≠ ']' := fun c hc =>
    (digit_char_ne c (natDigits_all_digit i c hc)).2.2.1
  have hlb : (segChars (.indexed k i)).any (fun c => c = '[') = true := by
    rw [List.any_eq_true]
    exact ⟨'[', by simp [segChars], rfl⟩
  have hbase : (segChars (.indexed k i)).takeWhile (fun d => d ≠ '[') = k.data := by
    rw [segChars, takeWhile_append_all _ _ _
      (fun c hc => by simpa using (hkchars c hc).2.1)]
    simp [List.takeWhile_cons]
  have hfi : firstIdx ']' (segChars (.indexed k i)) =
      some (k.data.length + (1 + (natDigits i).length)) := by
    rw [segChars, firstIdx_append_of_not _ _ _ (fun c hc => (hkchars c hc).2.2)]
    have h2 : firstIdx ']' ('[' :: (natDigits i ++ [']'])) =
        some (1 + (natDigits i).length) := by
      rw [firstIdx, if_neg (by decide)]
      rw [firstIdx_append_of_not _ _ _ hdig]
      simp [firstIdx]
      omega
    rw [h2]
    simp [Nat.add_comm]
  rw [parseSeg]
  simp only [hlb, if_true, hbase, hfi]
  have hdrop : ((segChars (.indexed k i)).drop (k.data.length + 1)) = natDigits i ++ [']'] := by
    rw [segChars]
    have : k.data ++ '[' :: (natDigits i ++ [']'])
        = (k.data ++ ['[']) ++ (natDigits i ++ [']']) := by simp
    rw [this]
    have hlen : (k.data ++ ['[']).length = k.data.length + 1 := by simp
    rw [← hlen, List.drop_left]
  rw [hdrop]
  have hsub : k.data.length + (1 + (natDigits i).length) - (k.data.length + 1)
      = (natDigits i).length := by omega
  rw [hsub]
  have htake : (natDigits i ++ [']']).take (natDigits i).length = natDigits i :=
    List.take_left _ _
  rw [htake, parseNatDigits_natDigits]
  simp only [hne, ne_eq, not_false_iff, if_pos]
  have hmk : String.mk k.data = k := by cases k; rfl
  simp [hmk]

theorem segChars_dotfree (s : Seg) (hs : wfSeg s = true) : ∀ c ∈ segChars s, c ≠ '.' := by
  cases s with
  | bare k =>
    intro c hc
    simp only [wfSeg, Bool.and_eq_true, List.all_eq_true] at hs
    have := hs.2 c hc
    simp only [segOkChar, decide_eq_true_eq] at this
    exact this.1
  | indexed k i =>
    intro c hc
    simp only [wfSeg, Bool.and_eq_true, List.all_eq_true] at hs
    simp only [segChars, List.mem_append, List.mem_cons] at hc
    rcases hc with hck | hcb | hcd
    · have := hs.2 c hck
      simp only [segOkChar, decide_eq_true_eq] at this
      exact this.1
    · subst hcb; decide
    · rcases hcd with hcd | hcd | hcd
      · exact (digit_char_ne c (natDigits_all_digit i c hcd)).1
      · subst hcd; decide
      · simp at hcd

theorem foldr_parseSeg (segs : List Seg) (h : wfSegs segs = true) :
    (segs.map segChars).foldr
      (fun seg acc =>
        match parseSeg seg, acc with
        | some ps, some rest => some (ps ++ rest)
        | _, _ => none)
      (some []) = some (toParts segs) := by
  induction segs with
  | nil => rfl
  | cons s rest ih =>
    simp only [wfSegs, List.all_cons, Bool.and_eq_true] at h
    have htl := ih (by simp [wfSegs, h.2])
    cases s with
    | bare k =>
      simp only [List.map_cons, List.foldr_cons, htl, segChars, parseSeg_bareK k h.1]
      rfl
    | indexed k i =>
      simp only [List.map_cons, List.foldr_cons, htl, parseSeg_indexedK k i h.1]
      rfl

theorem parsePathStr_render (segs : List Seg) (h : wfSegs segs = true) (hne : segs ≠ []) :
    parsePathStr (renderPath segs) = some (toParts segs) := by
  have hdata : (renderPath segs).data = joinDots (segs.map segChars) := rfl
  have hsplit : splitDot (joinDots (segs.map segChars)) = segs.map segChars :=
    splitDot_joinDots _ (by simpa using hne)
      (by
        intro p hp c hc
        simp only [List.mem_map] at hp
        obtain ⟨s, hs, rfl⟩ := hp
        have hws : wfSeg s = true := by
          rw [wfSegs, List.all_eq_true] at h
          exact h s hs
        exact segChars_dotfree s hws c hc)
  rw [parsePathStr, hdata, hsplit]
  exact foldr_parseSeg segs h

theorem walkParts_toParts (segs : List Seg) (resp : JVal) :
    walkParts resp (toParts segs) =
      (match specResolve resp segs with | some v => v | none => JVal.null) := by
  induction segs generalizing resp with
  | nil => rfl
  | cons s rest ih =>
    cases s with
    | bare k =>
      cases resp with
      | obj fs =>
        simp only [toParts, walkParts, specResolve]
        cases fs.get k with
        | none => rfl
        | some v => exact ih v
      | null => rfl
      | bool b => rfl
      | num n => rfl
      | str s => rfl
      | arr xs => rfl
    | indexed k i =>
      cases resp with
      | obj fs =>
        simp only [toParts, walkParts, specResolve]
        cases fs.get k with
        | none => rfl
        | some v =>
          cases v with
          | arr xs =>
            simp only [walkParts]
            cases xs.get? i with
            | none => rfl
            | some w => exact ih w
          | null => rfl
          | bool b => rfl
          | num n => rfl
          | str s => rfl
          | obj gs => rfl
      | null => rfl
      | bool b => rfl
      | num n => rfl
      | str s => rfl
      | arr xs => rfl

/-! ### The body. marker is recognised exactly at a leading bare body
segment followed by at least one further segment. -/

theorem startsBody_false_nil (k : String) (hk : ∀ c ∈ k.data, c ≠ '.') :
    startsList "body.".data k.data = false := by
  rw [Bool.eq_false_iff]
  intro hcontra
  obtain ⟨t, ht⟩ := (startsList_iff _ _).1 hcontra
  exact hk '.' (by rw [← ht]; simp) rfl

theorem startsBody_false_dot (k : String) (hk : ∀ c ∈ k.data, c ≠ '.')
    (hkb : k ≠ "body") (T : List Char) :
    startsList "body.".data (k.data ++ '.' :: T) = false := by
  rcases hd : k.data with _ | ⟨a1, _ | ⟨a2, _ | ⟨a3, _ | ⟨a4, _ | ⟨a5, rest5⟩⟩⟩⟩⟩
  · simp [startsList]
  · simp [startsList]
  · simp [startsList]
  · simp [startsList]
  · rw [Bool.eq_false_iff]
    intro hcontra
    simp only [List.cons_append, List.nil_append, startsList, Bool.and_eq_true,
      decide_eq_true_eq] at hcontra
    apply hkb
    have h2 : k.data = "body".data := by
      rw [hd, ← hcontra.1, ← hcontra.2.1, ← hcontra.2.2.1, ← hcontra.2.2.2.1]
    exact congrArg String.mk h2
  · rw [Bool.eq_false_iff]
    intro hcontra
    simp only [List.cons_append, startsList, Bool.and_eq_true, decide_eq_true_eq] at hcontra
    exact hk '.' (by rw [hd, hcontra.2.2.2.2.1]; simp) rfl

theorem startsBody_false_lbracket (k : String) (hk : ∀ c ∈ k.data, c ≠ '.')
    (X : List Char) :
    startsList "body.".data (k.data ++ '[' :: X) = false := by
  rcases hd : k.data with _ | ⟨a1, _ | ⟨a2, _ | ⟨a3, _ | ⟨a4, _ | ⟨a5, rest5⟩⟩⟩⟩⟩
  · simp [startsList]
  · simp [startsList]
  · simp [startsList]
  · simp [startsList]
  · simp [startsList]
  · rw [Bool.eq_false_iff]
    intro hcontra
    simp only [List.cons_append, startsList, Bool.and_eq_true, decide_eq_true_eq] at hcontra
    exact hk '.' (by rw [hd, hcontra.2.2.2.2.1]; simp) rfl

theorem renderData_strip (segs : List Seg) (h : wfSegs segs = true) :
    (if startsList "body.".data (renderPath segs).data = true
     then (renderPath segs).data.drop 5 else (renderPath segs).data)
    = (renderPath (stripBody segs)).data := by
  cases segs with
  | nil => rfl
  | cons s rest =>
    have hws : wfSeg s = true := by
      rw [wfSegs, List.all_eq_true] at h
      exact h s (by simp)
    cases s with
    | bare k =>
      by_cases hb : k = "body" ∧ rest ≠ []
      · obtain ⟨rfl, hrest⟩ := hb
        cases rest with
        | nil => exact absurd rfl hrest
        | cons q rest' =>
          have hjoin : (renderPath (Seg.bare "body" :: q :: rest')).data
              = 'b' :: 'o' :: 'd' :: 'y' :: '.' :: joinDots ((q :: rest').map segChars) := rfl
          have hstrip : stripBody (Seg.bare "body" :: q :: rest') = q :: rest' := by
            simp [stripBody]
          rw [hjoin, hstrip]
          simp [startsList, renderPath]
      · have hkdot : ∀ c ∈ k.data, c ≠ '.' := by
          intro c hc
          rw [wfSeg, Bool.and_eq_true, List.all_eq_true] at hws
          have := hws.2 c hc
          simp only [segOkChar, decide_eq_true_eq] at this
          exact this.1
        have hstrip : stripBody (Seg.bare k :: rest) = Seg.bare k :: rest := by
          simp [stripBody, hb]
        have hfalse : startsList "body.".data (renderPath (Seg.bare k :: rest)).data = false := by
          cases rest with
          | nil => exact startsBody_false_nil k hkdot
          | cons q rest' =>
            by_cases hkb : k = "body"
            · exact absurd ⟨hkb, by simp⟩ hb
            · have : (renderPath (Seg.bare k :: q :: rest')).data
                  = k.data ++ '.' :: joinDots ((q :: rest').map segChars) := rfl
              rw [this]
              exact startsBody_false_dot k hkdot hkb _
        rw [hfalse, hstrip]
        simp
    | indexed k i =>
      have hkdot : ∀ c ∈ k.data, c ≠ '.' := by
        intro c hc
        rw [wfSeg, Bool.and_eq_true, List.all_eq_true] at hws
        have := hws.2 c hc
        simp only [segOkChar, decide_eq_true_eq] at this
        exact this.1
      have hstrip : stripBody (Seg.indexed k i :: rest) = Seg.indexed k i :: rest := rfl
      have hfalse : startsList "body.".data (renderPath (Seg.indexed k i :: rest)).data
          = false := by
        cases rest with
        | nil =>
          have : (renderPath [Seg.indexed k i]).data
              = k.data ++ '[' :: (natDigits i ++ [']']) := rfl
          rw [this]
          exact startsBody_false_lbracket k hkdot _
        | cons q rest' =>
          have : (renderPath (Seg.indexed k i :: q :: rest')).data
              = k.data ++ '[' :: ((natDigits i ++ [']'])
                ++ '.' :: joinDots ((q :: rest').map segChars)) := by
            simp [renderPath, joinDots, segChars]
          rw [this]
          exact startsBody_false_lbracket k hkdot _
      rw [hfalse, hstrip]
      simp

theorem stripBody_wf (segs : List Seg) (h : wfSegs segs = true) :
    wfSegs (stripBody segs) = true := by
  cases segs with
  | nil => exact h
  | cons s rest =>
    cases s with
    | bare k =>
      rw [stripBody]
      split
      · rw [wfSegs, List.all_cons, Bool.and_eq_true] at h
        exact h.2
      · exact h
    | indexed k i => exact h

theorem stripBody_ne (segs : List Seg) (hne : segs ≠ []) :
    stripBody segs ≠ [] := by
  cases segs with
  | nil => exact hne
  | cons s rest =>
    cases s with
    | bare k =>
      rw [stripBody]
      split
      · rename_i hcond
        exact hcond.2
      · simp
    | indexed k i => simp [stripBody]

theorem renderPath_ne_empty (segs : List Seg) (hwf : wfSegs segs = true)
    (hne : segs ≠ []) : renderPath segs ≠ "" := by
  cases segs with
  | nil => exact absurd rfl hne
  | cons s rest =>
    have hws : wfSeg s = true := by
      rw [wfSegs, List.all_eq_true] at hwf
      exact hwf s (by simp)
    have hchars : segChars s ≠ [] := by
      cases s with
      | bare k =>
        rw [wfSeg, Bool.and_eq_true] at hws
        simpa [segChars, List.isEmpty_iff] using hws.1
      | indexed k i => simp [segChars]
    intro hcontra
    have : (renderPath (s :: rest)).data = [] := by rw [hcontra]
    cases rest with
    | nil => exact hchars (by simpa [renderPath, joinDots] using this)
    | cons q rest' =>
      rw [renderPath] at this
      simp only [List.map_cons, joinDots] at this
      rcases List.append_eq_nil.1 this with ⟨h1, h2⟩
      exact hchars h1

/-- extract_value on a rendered well-formed path agrees with the spec-side
addressing after stripping the body marker; null doubles as the not-found
result. -/
theorem extractValue_render (segs : List Seg) (resp : JVal) (hwf : wfSegs segs = true)
    (hne : segs ≠ []) :
    extractValue resp (renderPath segs)
      = (match specResolve resp (stripBody segs) with
         | some v => v
         | none => JVal.null) := by
  have hwf' : wfSegs (stripBody segs) = true := stripBody_wf segs hwf
  have hne' : stripBody segs ≠ [] := stripBody_ne segs hne
  have hparse := parsePathStr_render (stripBody segs) hwf' hne'
  have hwalk := walkParts_toParts (stripBody segs) resp
  simp only [extractValue]
  by_cases hs : startsList "body.".data (renderPath segs).data = true
  · have hd : (renderPath segs).data.drop 5 = (renderPath (stripBody segs)).data := by
      have h0 := renderData_strip segs hwf
      rwa [if_pos hs] at h0
    have hp : String.mk ((renderPath segs).data.drop 5) = renderPath (stripBody segs) :=
      congrArg String.mk hd
    rw [if_pos hs, hp, hparse]
    exact hwalk
  · have hd : (renderPath segs).data = (renderPath (stripBody segs)).data := by
      have h0 := renderData_strip segs hwf
      rwa [if_neg hs] at h0
    have hp : renderPath segs = renderPath (stripBody segs) := congrArg String.mk hd
    rw [if_neg hs, hp, hparse]
    exact hwalk

/-- Claim C6: for every nested structure and every path of dot-separated
segments (bare key or key[idx] with a non-negative index literal),
extract_value returns the addressed value (relative to the body-root
marker of the path language) when every segment resolves, and otherwise
the not-found signal -- the walk is a total function, so key absence,
out-of-bounds indices and kind mismatches can never raise. -/
theorem claim_C6 (segs : List Seg) (resp : JVal)
    (hwf : wfSegs segs = true) (hne : segs ≠ []) :
    (∀ v : JVal, specResolve resp (stripBody segs) = some v →
      extractValue resp (renderPath segs) = v) ∧
    (specResolve resp (stripBody segs) = none →
      extractValue resp (renderPath segs) = JVal.null) := by
  constructor
  · intro v hv
    rw [extractValue_render segs resp hwf hne, hv]
  · intro hn
    rw [extractValue_render segs resp hwf hne, hn]

/-- Concrete instantiation of claim C6: body.a[0] addresses a nested value,
and an out-of-range index yields the not-found result. -/
theorem claim_C6_witness :
    extractValue (.obj (JFields.cons "a" (.arr (JArr.cons (.num 7) .nil)) .nil))
      (renderPath [Seg.bare "body", Seg.indexed "a" 0]) = JVal.num 7 ∧
    extractValue (.obj (JFields.cons "a" (.arr (JArr.cons (.num 7) .nil)) .nil))
      (renderPath [Seg.bare "body", Seg.indexed "a" 1]) = JVal.null := by
  constructor
  · exact (claim_C6 [Seg.bare "body", Seg.indexed "a" 0] _ (by decide) (by decide)).1
      (JVal.num 7) rfl
  · exact (claim_C6 [Seg.bare "body", Seg.indexed "a" 1] _ (by decide) (by decide)).2 rfl

/-- Claim C10: a save_config entry whose eval path resolves to a JSON null
writes nothing -- the key enters neither the variable store nor the saved
dict -- because the extracted Python value is None, exactly the not-found
sentinel. -/
theorem claim_C10 (vars : JFields) (body : JVal) (key : String) (segs : List Seg)
    (hwf : wfSegs segs = true) (hne : segs ≠ []) (hkey : key ≠ "")
    (hnull : specResolve body (stripBody segs) = some JVal.null) :
    extractValue body (renderPath segs) = JVal.null ∧
    extractAndSave vars body (some [{ key := key, evalPath := renderPath segs }])
      = (vars, JFields.nil) := by
  have hev : extractValue body (renderPath segs) = JVal.null := by
    rw [extractValue_render segs body hwf hne, hnull]
  refine ⟨hev, ?_⟩
  have hpne : renderPath segs ≠ "" := renderPath_ne_empty segs hwf hne
  simp [extractAndSave, saveStep, hkey, hpne, hev]

/-- Concrete instantiation of claim C10: extracting body.a from a body
whose a is null saves nothing. -/
theorem claim_C10_witness :
    extractValue (.obj (JFields.cons "a" JVal.null .nil))
      (renderPath [Seg.bare "body", Seg.bare "a"]) = JVal.null ∧
    extractAndSave (JFields.cons "x" (.num 1) .nil)
      (.obj (JFields.cons "a" JVal.null .nil))
      (some [{ key := "k", evalPath := renderPath [Seg.bare "body", Seg.bare "a"] }])
      = (JFields.cons "x" (.num 1) .nil, JFields.nil) :=
  claim_C10 (JFields.cons "x" (.num 1) .nil)
    (.obj (JFields.cons "a" JVal.null .nil)) "k" [Seg.bare "body", Seg.bare "a"]
    (by decide) (by decide) (by decide) rfl

/-! ## The minimal condition evaluator

SecureExecutor._evaluate_expect.  An empty expression is truthy-checked
first; the expression is trimmed, must contain the equality token, is split
at its first occurrence, the left side must start with the body marker, the
right side is trimmed and stripped of quote characters, and the dotted path
is resolved through nested dicts only.  Whitespace trimming models the
common ASCII whitespace of str.strip. -/

def isSpaceChar (c : Char) : Bool :=
  c = ' ' ∨ c = '\t' ∨ c = '\n' ∨ c = '\r'

def trimChars (s : List Char) : List Char :=
  ((s.dropWhile isSpaceChar).reverse.dropWhile isSpaceChar).reverse

/-- Python str.strip with a single character argument: remove every copy of
that character from both ends. -/
def stripQuote (q : Char) (s : List Char) : List Char :=
  ((s.dropWhile (fun c => c = q)).reverse.dropWhile (fun c => c = q)).reverse

/-- Python str.split(sep, 1): the text before and after the first
occurrence of sep, or none when sep does not occur. -/
def splitFirst (pat : List Char) : List Char → Option (List Char × List Char)
  | [] => if pat ≠ [] then none else some ([], [])
  | c :: r =>
    if startsList pat (c :: r) ∧ pat ≠ [] then some ([], (c :: r).drop pat.length)
    else (splitFirst pat r).map (fun p => (c :: p.1, p.2))

/-- The dict-only dotted walk of _evaluate_expect. -/
def walkDots : JVal → List (List Char) → Option JVal
  | cur, [] => some cur
  | cur, p :: rest =>
    match cur with
    | .obj fs =>
      match fs.get (String.mk p) with
      | some v => walkDots v rest
      | none => none
    | _ => none

/-- _evaluate_expect. -/
def evaluateExpect (body : JFields) (expect : String) : Bool :=
  if expect = "" then true
  else
    let expr := trimChars expect.data
    if occursB "==".data expr = true then
      match splitFirst "==".data expr with
      | some (l, r) =>
        let left := trimChars l
        let right := trimChars r
        if startsList "body.".data left = true then
          let expected := stripQuote '"' (stripQuote '\'' (trimChars right))
          match walkDots (.obj body) (splitDot (left.drop 5)) with
          | some cur => decide ((pyStr cur).data = expected)
          | none => false
        else false
      | none => false
    else false

/-- Counterexample to claim C8 as stated: the empty expression lacks the
equality token yet evaluates true (the evaluator treats a falsy expression
as no condition), and an expression with two equality tokens -- hence not
of the single-comparison shape -- can also evaluate true, because the split
happens at the first token and the remainder becomes the literal. -/
theorem claim_C8_counterexample :
    evaluateExpect JFields.nil "" = true ∧
    evaluateExpect (JFields.cons "a" (.str "x == y") .nil) "body.a == x == y" = true := by
  constructor
  · rfl
  · rfl

theorem splitFirst_decomp (pat : List Char) (hp : pat ≠ []) :
    ∀ s a b, splitFirst pat s = some (a, b) → s = a ++ pat ++ b := by
  intro s
  induction s with
  | nil =>
    intro a b hab
    rw [splitFirst, if_pos hp] at hab
    cases hab
  | cons c r ih =>
    intro a b hab
    rw [splitFirst] at hab
    split at hab
    · rename_i hcond
      obtain ⟨t, ht⟩ := (startsList_iff pat (c :: r)).1 hcond.1
      injection hab with hab
      injection hab with h1 h2
      subst h1
      subst h2
      rw [List.nil_append, ← ht]
      congr 1
      exact (List.drop_left pat t).symm
    · simp only [Option.map_eq_some'] at hab
      obtain ⟨p, hp2, hpe⟩ := hab
      injection hpe with h1 h2
      subst h1
      subst h2
      have := ih p.1 p.2 (by rw [hp2])
      simp [this]

theorem splitFirst_isSome (pat : List Char) (hp : pat ≠ []) :
    ∀ s, occursB pat s = true → ∃ a b, splitFirst pat s = some (a, b) := by
  intro s
  induction s with
  | nil =>
    intro hocc
    rw [occursB] at hocc
    obtain ⟨t, ht⟩ := (startsList_iff pat []).1 hocc
    exact absurd (List.append_eq_nil.1 ht).1 hp
  | cons c r ih =>
    intro hocc
    rw [occursB, Bool.or_eq_true] at hocc
    by_cases hs : startsList pat (c :: r) = true
    · exact ⟨[], (c :: r).drop pat.length, by rw [splitFirst, if_pos ⟨hs, hp⟩]⟩
    · have hr : occursB pat r = true := by
        rcases hocc with h | h
        · exact absurd h hs
        · exact h
      obtain ⟨a, b, hab⟩ := ih hr
      refine ⟨c :: a, b, ?_⟩
      rw [splitFirst, if_neg (by simp [hs]), hab]
      rfl

theorem splitFirst_minimal (pat : List Char) (hp : pat ≠ []) :
    ∀ s a b, splitFirst pat s = some (a, b) →
      ∀ a' b', s = a' ++ pat ++ b' → a.length ≤ a'.length := by
  intro s
  induction s with
  | nil =>
    intro a b hab
    rw [splitFirst, if_pos hp] at hab
    cases hab
  | cons c r ih =>
    intro a b hab a' b' hdec
    rw [splitFirst] at hab
    split at hab
    · injection hab with hab
      injection hab with h1 _
      subst h1
      simp
    · rename_i hcond
      have hns : ¬ startsList pat (c :: r) = true := by
        intro hcontra
        exact hcond ⟨hcontra, hp⟩
      simp only [Option.map_eq_some'] at hab
      obtain ⟨p, hp2, hpe⟩ := hab
      injection hpe with h1 h2
      subst h1
      subst h2
      cases a' with
      | nil =>
        exfalso
        apply hns
        rw [(startsList_iff pat (c :: r))]
        exact ⟨b', by simpa using hdec.symm⟩
      | cons c' a'' =>
        simp only [List.cons_append, List.cons.injEq] at hdec
        have := ih p.1 p.2 (by rw [hp2]) a'' b' hdec.2
        simp only [List.length_cons]
        omega

/-- Claim C8 amended: the evaluator returns true exactly when the
expression is empty (treated as no condition), or when splitting the
trimmed expression at its FIRST equality token yields a left side rooted
at body. whose remaining dotted path resolves through nested mappings and
whose stringified value equals the trimmed, quote-stripped right side (so
text after a second equality token is simply part of the literal); a
nonempty expression with no equality token, or with a left side not rooted
at body., evaluates false rather than raising. -/
theorem claim_C8 (body : JFields) (e : String) :
    evaluateExpect body e = true ↔
      (e = "" ∨
       ∃ l r v,
         trimChars e.data = l ++ "==".data ++ r ∧
         (∀ l' r', trimChars e.data = l' ++ "==".data ++ r' → l.length ≤ l'.length) ∧
         startsList "body.".data (trimChars l) = true ∧
         walkDots (JVal.obj body) (splitDot ((trimChars l).drop 5)) = some v ∧
         (pyStr v).data = stripQuote '"' (stripQuote '\'' (trimChars (trimChars r)))) := by
  have hpat : ("==".data : List Char) ≠ [] := by decide
  by_cases he : e = ""
  · subst he
    simp [evaluateExpect]
  · rw [evaluateExpect, if_neg he]
    simp only [he, false_or]
    by_cases hocc : occursB "==".data (trimChars e.data) = true
    · obtain ⟨l0, r0, hsf⟩ := splitFirst_isSome "==".data hpat (trimChars e.data) hocc
      have hdec0 := splitFirst_decomp "==".data hpat (trimChars e.data) l0 r0 hsf
      have hmin0 := splitFirst_minimal "==".data hpat (trimChars e.data) l0 r0 hsf
      rw [if_pos hocc]
      simp only [hsf]
      constructor
      · intro htrue
        by_cases hb : startsList "body.".data (trimChars l0) = true
        · rw [if_pos hb] at htrue
          rcases hw : walkDots (JVal.obj body) (splitDot ((trimChars l0).drop 5)) with _ | cur
          · rw [hw] at htrue
            cases htrue
          · rw [hw] at htrue
            refine ⟨l0, r0, cur, hdec0, hmin0, hb, hw, ?_⟩
            simpa using htrue
        · rw [if_neg hb] at htrue
          cases htrue
      · rintro ⟨l, r, v, hdec, hmin, hb, hw, hs⟩
        have hll : l.length = l0.length :=
          Nat.le_antisymm (hmin l0 r0 hdec0) (hmin0 l r hdec)
        have hl : l = l0 := by
          have h1 : (l ++ ("==".data ++ r)).take l.length = l := by
            simp
          have h2 : (l0 ++ ("==".data ++ r0)).take l0.length = l0 := by
            simp
          rw [← h1, ← h2, ← hll]
          rw [← List.append_assoc, ← hdec, ← List.append_assoc, ← hdec0]
        subst hl
        have hr : r = r0 := List.append_cancel_left (hdec.symm.trans hdec0)
        rw [if_pos hb, hw]
        simp [hs, hr]
    · rw [if_neg hocc]
      constructor
      · intro hfalse
        cases hfalse
      · rintro ⟨l, r, v, hdec, -, -, -, -⟩
        exfalso
        apply hocc
        rw [occursB_iff]
        exact ⟨l, r, by simpa using hdec⟩

/-! ## The attempt recorder

SessionManager.execute as a pure state transition.  The external executor
and environment expansion are inputs: each call carries the result the
executor would produce for its resolved request, and envF stands for
expand_env_vars.  The missing-variable warning is a stderr side effect with
no state impact, and draft/session persistence are external writes; neither
is part of the session state the claims quantify over.  The timestamp field
(wall clock) is not modelled. -/

structure ExecResultM : Type where
  success : Bool
  statusCode : Option Int
  body : JVal
  error : Option String
  durationMs : Int
  deriving DecidableEq

structure AttemptM : Type where
  index : Nat
  operationId : String
  requestType : String
  request : JVal
  resolvedRequest : JVal
  responseStatus : Option Int
  responseBody : JVal
  success : Bool
  error : Option String
  durationMs : Int
  savedVariables : JFields
  saveConfig : Option (List SaveEntry)
  deriving DecidableEq

/-- Session state: the Python attribute named variables is called vars
here because variables is a reserved word in Lean. -/
structure SessionM : Type where
  vars : JFields
  attempts : List AttemptM
  deriving DecidableEq

structure CallM : Type where
  operationId : String
  request : JVal
  saveConfig : Option (List SaveEntry)
  requestType : String
  httpResult : ExecResultM
  cliResult : ExecResultM

/-- The immediate failed result for an unknown request_type: no dispatch
happens, the body is the empty dict. -/
def unknownTypeResult (rt : String) : ExecResultM :=
  { success := false, statusCode := none, body := .obj .nil,
    error := some ("Unknown request_type: " ++ rt), durationMs := 0 }

/-- A new session's store is seeded from the SUT preset variables. -/
def freshSession (presets : JFields) : SessionM :=
  { vars := presets, attempts := [] }

/-- SessionManager.execute. -/
def executeM (envF : JVal → JVal) (st : SessionM) (c : CallM) : SessionM × AttemptM :=
  let resolved := envF (substitute st.vars c.request)
  let result :=
    if c.requestType = "http" then c.httpResult
    else if c.requestType = "cli" then c.cliResult
    else unknownTypeResult c.requestType
  let es :=
    if result.success then extractAndSave st.vars result.body c.saveConfig
    else (st.vars, JFields.nil)
  let attempt : AttemptM :=
    { index := st.attempts.length
      operationId := c.operationId
      requestType := c.requestType
      request := c.request
      resolvedRequest := resolved
      responseStatus := result.statusCode
      responseBody := result.body
      success := result.success
      error := result.error
      durationMs := result.durationMs
      savedVariables := es.2
      saveConfig := c.saveConfig }
  ({ vars := es.1, attempts := st.attempts ++ [attempt] }, attempt)

/-- N successive execute calls against a fresh session. -/
def runCalls (envF : JVal → JVal) (presets : JFields) (calls : List CallM) : SessionM :=
  calls.foldl (fun st c => (executeM envF st c).1) (freshSession presets)

theorem runCalls_indices (envF : JVal → JVal) (rm : List CallM) :
    ∀ (st : SessionM),
      ((rm.foldl (fun s c => (executeM envF s c).1) st).attempts).map (fun a => a.index)
        = st.attempts.map (fun a => a.index)
          ++ List.range' st.attempts.length rm.length := by
  induction rm with
  | nil => intro st; simp
  | cons c cs ih =>
    intro st
    have hstep : ((executeM envF st c).1).attempts.map (fun a => a.index)
        = st.attempts.map (fun a => a.index) ++ [st.attempts.length] := by
      simp [executeM]
    have hlen : ((executeM envF st c).1).attempts.length = st.attempts.length + 1 := by
      simp [executeM]
    rw [List.foldl_cons, ih ((executeM envF st c).1), hstep, hlen, List.length_cons,
      List.range'_succ]
    simp

/-- Claim C3: after any sequence of N execute calls on a fresh session --
any mix of successes, failures and unknown request types -- the attempt log
holds exactly N attempts whose index fields are 0..N-1 in creation order,
and every single call appends exactly one attempt whatever its outcome. -/
theorem claim_C3 (envF : JVal → JVal) (presets : JFields) (calls : List CallM) :
    ((runCalls envF presets calls).attempts).map (fun a => a.index)
      = List.range calls.length ∧
    (∀ (st : SessionM) (c : CallM),
      (executeM envF st c).1.attempts = st.attempts ++ [(executeM envF st c).2]) := by
  constructor
  · rw [runCalls, runCalls_indices envF calls (freshSession presets)]
    simp [freshSession]
    rw [List.range_eq_range']
  · intro st c
    rfl

/-! ## Variable-store invariants -/

theorem JFields.mem_keys_set : ∀ (fs : JFields) (k0 k : String) (v : JVal),
    k ∈ (fs.set k0 v).keys ↔ k = k0 ∨ k ∈ fs.keys
  | .nil, k0, k, v => by simp [JFields.set, JFields.keys, JFields.entries]
  | .cons k1 v1 tl, k0, k, v => by
    by_cases h : k1 = k0
    · subst h
      simp [JFields.set, JFields.keys, JFields.entries]
    · have ih := JFields.mem_keys_set tl k0 k v
      simp only [JFields.set, if_neg h, JFields.keys, JFields.entries, List.map_cons,
        List.mem_cons]
      rw [JFields.keys] at ih
      rw [ih]
      tauto

/-- One step of the extract_and_save fold either writes one key to both the
store and the saved dict, or touches neither. -/
theorem extractAndSave_step_keys (body : JVal) (e : SaveEntry) (acc : JFields × JFields)
    (k : String) :
    ((k ∈ (saveStep body acc e).1.keys ∨ k ∈ acc.2.keys) ↔
      (k ∈ acc.1.keys ∨ k ∈ (saveStep body acc e).2.keys)) ∧
    (k ∈ acc.1.keys → k ∈ (saveStep body acc e).1.keys) ∧
    (k ∈ acc.2.keys → k ∈ (saveStep body acc e).2.keys) := by
  by_cases h1 : e.key ≠ "" ∧ e.evalPath ≠ ""
  · by_cases h2 : extractValue body e.evalPath ≠ JVal.null
    · have hs : saveStep body acc e = (acc.1.set e.key (extractValue body e.evalPath),
          acc.2.set e.key (extractValue body e.evalPath)) := by
        simp only [saveStep, if_pos h1, if_pos h2]
      rw [hs]
      simp only [JFields.mem_keys_set]
      refine ⟨by tauto, by tauto, by tauto⟩
    · have hs : saveStep body acc e = acc := by
        simp only [saveStep, if_pos h1, if_neg h2]
      rw [hs]
      exact ⟨Iff.rfl, id, id⟩
  · have hs : saveStep body acc e = acc := by
      simp only [saveStep, if_neg h1]
    rw [hs]
    exact ⟨Iff.rfl, id, id⟩

theorem extractAndSave_fold_keys (body : JVal) (entries : List SaveEntry) (k : String) :
    ∀ acc : JFields × JFields,
      ((k ∈ (entries.foldl (saveStep body) acc).1.keys ∨ k ∈ acc.2.keys) ↔
        (k ∈ acc.1.keys ∨ k ∈ (entries.foldl (saveStep body) acc).2.keys)) ∧
      (k ∈ acc.1.keys → k ∈ (entries.foldl (saveStep body) acc).1.keys) ∧
      (k ∈ acc.2.keys → k ∈ (entries.foldl (saveStep body) acc).2.keys) := by
  induction entries with
  | nil => intro acc; exact ⟨Iff.rfl, id, id⟩
  | cons e rest ih =>
    intro acc
    have hstep := extractAndSave_step_keys body e acc k
    have hrec := ih (saveStep body acc e)
    simp only [List.foldl_cons]
    refine ⟨⟨?_, ?_⟩, ?_, ?_⟩
    · rintro (h | h)
      · rcases (hrec.1).1 (Or.inl h) with h2 | h2
        · rcases (hstep.1).1 (Or.inl h2) with h3 | h3
          · exact Or.inl h3
          · exact Or.inr (hrec.2.2 h3)
        · exact Or.inr h2
      · exact Or.inr (hrec.2.2 (hstep.2.2 h))
    · rintro (h | h)
      · exact Or.inl (hrec.2.1 (hstep.2.1 h))
      · rcases (hrec.1).2 (Or.inr h) with h2 | h2
        · exact Or.inl h2
        · rcases (hstep.1).2 (Or.inr h2) with h3 | h3
          · exact Or.inl (hrec.2.1 h3)
          · exact Or.inr h3
    · intro h
      exact hrec.2.1 (hstep.2.1 h)
    · intro h
      exact hrec.2.2 (hstep.2.2 h)

theorem jfields_keys_nil : JFields.nil.keys = [] := rfl

theorem extractAndSave_keys (vars : JFields) (body : JVal) (cfg : Option (List SaveEntry))
    (k : String) :
    (k ∈ (extractAndSave vars body cfg).1.keys ↔
      k ∈ vars.keys ∨ k ∈ (extractAndSave vars body cfg).2.keys) ∧
    (k ∈ vars.keys → k ∈ (extractAndSave vars body cfg).1.keys) := by
  cases cfg with
  | none =>
    simp only [extractAndSave, jfields_keys_nil, List.not_mem_nil, or_false]
    constructor <;> first | trivial | exact id
  | some entries =>
    have h := extractAndSave_fold_keys body entries k (vars, JFields.nil)
    simp only [jfields_keys_nil, List.not_mem_nil, or_false, false_or] at h
    exact ⟨by simpa [extractAndSave] using h.1, by simpa [extractAndSave] using h.2.1⟩

theorem executeM_keys (envF : JVal → JVal) (st : SessionM) (c : CallM) (k : String) :
    k ∈ (executeM envF st c).1.vars.keys ↔
      (k ∈ st.vars.keys ∨
       ((executeM envF st c).2.success = true ∧
        k ∈ (executeM envF st c).2.savedVariables.keys)) := by
  rw [executeM]
  rcases hs : (if c.requestType = "http" then c.httpResult
      else if c.requestType = "cli" then c.cliResult
      else unknownTypeResult c.requestType).success with _ | _
  · simp only [hs, Bool.false_eq_true, if_false]
    simp [jfields_keys_nil]
  · simp only [hs, if_true]
    have h := extractAndSave_keys st.vars
      (if c.requestType = "http" then c.httpResult
       else if c.requestType = "cli" then c.cliResult
       else unknownTypeResult c.requestType).body c.saveConfig k
    simp only [hs, true_and]
    exact h.1

/-- Claim C4: after any call sequence on a fresh session, a name is in the
variable store exactly when it was seeded as a preset or saved by a
successful attempt's extraction; a failed call (including the unknown
request_type case) saves nothing and leaves the store untouched; and a
name already in the store survives every later call. -/
theorem claim_C4 (envF : JVal → JVal) (presets : JFields) (calls : List CallM) :
    (∀ k : String,
      k ∈ (runCalls envF presets calls).vars.keys ↔
        (k ∈ presets.keys ∨
         ∃ a ∈ (runCalls envF presets calls).attempts,
           a.success = true ∧ k ∈ a.savedVariables.keys)) ∧
    (∀ (st : SessionM) (c : CallM),
      (executeM envF st c).2.success = false →
        (executeM envF st c).2.savedVariables = JFields.nil ∧
        (executeM envF st c).1.vars = st.vars) ∧
    (∀ (st : SessionM) (c : CallM) (k : String),
      k ∈ st.vars.keys → k ∈ (executeM envF st c).1.vars.keys) := by
  have hmono : ∀ (st : SessionM) (c : CallM) (k : String),
      k ∈ st.vars.keys → k ∈ (executeM envF st c).1.vars.keys := by
    intro st c k hk
    rw [executeM_keys]
    exact Or.inl hk
  have hfail : ∀ (st : SessionM) (c : CallM),
      (executeM envF st c).2.success = false →
        (executeM envF st c).2.savedVariables = JFields.nil ∧
        (executeM envF st c).1.vars = st.vars := by
    intro st c hf
    rw [executeM] at hf ⊢
    rcases hs : (if c.requestType = "http" then c.httpResult
        else if c.requestType = "cli" then c.cliResult
        else unknownTypeResult c.requestType).success with _ | _
    · simp only [hs, Bool.false_eq_true, if_false]
      constructor <;> trivial
    · simp only [hs] at hf
      cases hf
  refine ⟨?_, hfail, hmono⟩
  have hmain : ∀ (cs : List CallM) (st : SessionM),
      (∀ k : String, k ∈ st.vars.keys ↔
        (k ∈ presets.keys ∨ ∃ a ∈ st.attempts, a.success = true ∧ k ∈ a.savedVariables.keys)) →
      (∀ k : String,
        k ∈ (cs.foldl (fun s c => (executeM envF s c).1) st).vars.keys ↔
          (k ∈ presets.keys ∨
           ∃ a ∈ (cs.foldl (fun s c => (executeM envF s c).1) st).attempts,
             a.success = true ∧ k ∈ a.savedVariables.keys)) := by
    intro cs
    induction cs with
    | nil => intro st hinv k; exact hinv k
    | cons c rest ih =>
      intro st hinv k
      rw [List.foldl_cons]
      apply ih
      intro k2
      rw [executeM_keys, hinv k2]
      have hatt : (executeM envF st c).1.attempts = st.attempts ++ [(executeM envF st c).2] :=
        rfl
      rw [hatt]
      constructor
      · rintro ((hp | ⟨a, ha, hsa⟩) | hnew)
        · exact Or.inl hp
        · exact Or.inr ⟨a, by simp [ha], hsa⟩
        · exact Or.inr ⟨(executeM envF st c).2, by simp, hnew⟩
      · rintro (hp | ⟨a, ha, hsa⟩)
        · exact Or.inl (Or.inl hp)
        · simp only [List.mem_append, List.mem_singleton] at ha
          rcases ha with ha | ha
          · exact Or.inl (Or.inr ⟨a, ha, hsa⟩)
          · subst ha
            exact Or.inr hsa
  intro k
  exact hmain calls (freshSession presets) (by intro k2; simp [freshSession]) k

/-- Concrete instantiation of claim C4: with one preset and no calls the
store holds exactly the preset. -/
theorem claim_C4_witness :
    "p" ∈ (runCalls (fun v => v) (JFields.cons "p" (.num 1) .nil) []).vars.keys :=
  ((claim_C4 (fun v => v) (JFields.cons "p" (.num 1) .nil) []).1 "p").mpr
    (Or.inl (by simp [JFields.keys, JFields.entries]))

/-! ## Dependency validator and scenario compiler

SessionManager.summary and its helpers.  The one-pass loop over attempts is
embedded as a fold over a summary state; the validation strings are
modelled structurally (name plus the step numbers they quote).  Python's
set of required names per step is modelled by deduplicating the found
names in first-occurrence order (only membership matters downstream). -/

/-- Generic assoc-list helpers with the semantics of Python dict
assignment and dict.setdefault(...).append(...). -/
def setAssoc {α : Type} : List (String × α) → String → α → List (String × α)
  | [], k, v => [(k, v)]
  | (k0, v0) :: tl, k, v =>
    if k0 = k then (k0, v) :: tl else (k0, v0) :: setAssoc tl k v

def getAssoc {α : Type} : List (String × α) → String → Option α
  | [], _ => none
  | (k0, v0) :: tl, k => if k0 = k then some v0 else getAssoc tl k

def pushAssoc : List (String × List Nat) → String → Nat → List (String × List Nat)
  | [], k, n => [(k, [n])]
  | (k0, l0) :: tl, k, n =>
    if k0 = k then (k0, l0 ++ [n]) :: tl else (k0, l0) :: pushAssoc tl k n

/-- _operation_to_name: drop the first underscore-separated part and
lowercase the rest, joined by underscores; identifiers without an
underscore are just lowercased. -/
def splitUS : List Char → List (List Char)
  | [] => [[]]
  | c :: r =>
    if c = '_' then [] :: splitUS r
    else
      match splitUS r with
      | [] => [[c]]
      | g :: gs => (c :: g) :: gs

def joinUS : List (List Char) → List Char
  | [] => []
  | [x] => x
  | x :: y :: r => x ++ '_' :: joinUS (y :: r)

def opToName (opId : String) : String :=
  if occursB ['_'] opId.data then
    match splitUS opId.data with
    | [] => ""
    | _ :: rest => String.mk (joinUS (rest.map (fun p => p.map Char.toLower)))
  else String.mk (opId.data.map Char.toLower)

/-- A compiled scenario step.  expect is the dict with the observed
status_code; save carries the original save_config when truthy. -/
structure StepM : Type where
  name : String
  operationId : String
  requestType : String
  request : JVal
  expectStatus : Option Int
  expectCel : String
  save : Option (List SaveEntry)
  maxRetries : Nat
  delayAfter : Nat
  deriving DecidableEq

/-- The step built from one retained attempt with its 1-based number. -/
def stepOf (n : Nat) (a : AttemptM) : StepM :=
  { name := "step_" ++ toString n ++ "_" ++ opToName a.operationId
    operationId := a.operationId
    requestType := a.requestType
    request := redact a.request
    expectStatus := a.responseStatus
    expectCel := ""
    save := match a.saveConfig with
            | some cfg => if cfg = [] then none else some cfg
            | none => none
    maxRetries := 0
    delayAfter := 0 }

/-- A structured validation diagnostic (the Python code renders these into
f-strings carrying exactly this data). -/
inductive VErr : Type where
  | neverSaved (name : String) (useSteps : List Nat)
  | usedBeforeSaved (name : String) (useStep : Nat) (saveStep : Nat)
  deriving DecidableEq

structure SumSt : Type where
  stepNumber : Nat
  savedChain : List (String × Nat)
  requiredChain : List (String × List Nat)
  steps : List StepM
  deriving DecidableEq

/-- One iteration of the summary loop: removed or failed attempts are
skipped, a retained attempt takes the next step number, records itself as
producer of everything it saved, accumulates the step number on every name
its request requires, and contributes one compiled step. -/
def sumStep (rm : List Nat) (st : SumSt) (a : AttemptM) : SumSt :=
  if a.index ∈ rm ∨ a.success = false then st
  else
    let n := st.stepNumber + 1
    { stepNumber := n
      savedChain := a.savedVariables.keys.foldl (fun m k => setAssoc m k n) st.savedChain
      requiredChain := (findRequired a.request).dedup.foldl
        (fun m k0 => pushAssoc m (String.mk k0) n) st.requiredChain
      steps := st.steps ++ [stepOf n a] }

/-- The retained attempts: original order, minus removed indices and
failures. -/
def retainedOf (attempts : List AttemptM) (rm : List Nat) : List AttemptM :=
  attempts.filter (fun a => !(decide (a.index ∈ rm)) && a.success)

/-- The claim-side renumbering: walk the surviving attempts in order and
give them 1-based step numbers. -/
def numberSteps (start : Nat) : List AttemptM → List StepM
  | [] => []
  | a :: rest => stepOf (start + 1) a :: numberSteps (start + 1) rest

/-- The claim-side chains over the surviving sequence: a later save of the
same name overwrites the recorded producer step, and every step number
requiring a name is accumulated in order. -/
def buildChains (start : Nat) (sv : List (String × Nat)) (rq : List (String × List Nat)) :
    List AttemptM → List (String × Nat) × List (String × List Nat)
  | [] => (sv, rq)
  | a :: rest =>
    buildChains (start + 1)
      (a.savedVariables.keys.foldl (fun m k => setAssoc m k (start + 1)) sv)
      ((findRequired a.request).dedup.foldl
        (fun m k0 => pushAssoc m (String.mk k0) (start + 1)) rq)
      rest

/-- The validation pass, with an explicit accumulator for induction. -/
def validationFold (presets : List String) (savedChain : List (String × Nat)) :
    List VErr → List (String × List Nat) → List VErr
  | errs, [] => errs
  | errs, p :: rest =>
    if p.1 ∈ presets then validationFold presets savedChain errs rest
    else
      match getAssoc savedChain p.1 with
      | none => validationFold presets savedChain (errs ++ [VErr.neverSaved p.1 p.2]) rest
      | some s =>
        validationFold presets savedChain
          (errs ++ (p.2.filter (fun u => u ≤ s)).map
            (fun u => VErr.usedBeforeSaved p.1 u s)) rest

structure SummaryResult : Type where
  totalAttempts : Nat
  successAttempts : Nat
  removedAttempts : Nat
  finalSteps : Nat
  savedVariables : List String
  validationErrors : List VErr
  scenarioSteps : List StepM
  deriving DecidableEq

/-- SessionManager.summary: fold the loop, run validation, and return the
result dict; scenarioSteps is the step list written unconditionally to the
final YAML by _generate_final_yaml. -/
def summaryM (presets : List String) (attempts : List AttemptM) (rm : List Nat) :
    SummaryResult :=
  let fin := attempts.foldl (sumStep rm) ⟨0, [], [], []⟩
  { totalAttempts := attempts.length
    successAttempts := (attempts.filter (fun a => a.success)).length
    removedAttempts := rm.dedup.length
    finalSteps := fin.steps.length
    savedVariables := fin.savedChain.map Prod.fst
    validationErrors := validationFold presets fin.savedChain [] fin.requiredChain
    scenarioSteps := fin.steps }

theorem sumFold_spec (rm : List Nat) :
    ∀ (attempts : List AttemptM) (st : SumSt),
      attempts.foldl (sumStep rm) st =
        { stepNumber := st.stepNumber + (retainedOf attempts rm).length
          savedChain := (buildChains st.stepNumber st.savedChain st.requiredChain
            (retainedOf attempts rm)).1
          requiredChain := (buildChains st.stepNumber st.savedChain st.requiredChain
            (retainedOf attempts rm)).2
          steps := st.steps ++ numberSteps st.stepNumber (retainedOf attempts rm) } := by
  intro attempts
  induction attempts with
  | nil =>
    intro st
    cases st
    simp [retainedOf, buildChains, numberSteps]
  | cons a rest ih =>
    intro st
    by_cases hskip : a.index ∈ rm ∨ a.success = false
    · have hpred : (!(decide (a.index ∈ rm)) && a.success) = false := by
        rcases hskip with h | h
        · simp [h]
        · simp [h]
      have hstep : sumStep rm st a = st := by
        rw [sumStep, if_pos hskip]
      have hret : retainedOf (a :: rest) rm = retainedOf rest rm := by
        simp [retainedOf, List.filter_cons, hpred]
      rw [List.foldl_cons, hstep, ih st, hret]
    · push_neg at hskip
      have hmem : a.index ∉ rm := hskip.1
      have hsucc : a.success = true := by
        rcases hb : a.success with _ | _
        · exact absurd hb hskip.2
        · rfl
      have hpred : (!(decide (a.index ∈ rm)) && a.success) = true := by
        simp [hmem, hsucc]
      have hret : retainedOf (a :: rest) rm = a :: retainedOf rest rm := by
        simp [retainedOf, List.filter_cons, hpred]
      have hstep : sumStep rm st a =
          { stepNumber := st.stepNumber + 1
            savedChain := a.savedVariables.keys.foldl
              (fun m k => setAssoc m k (st.stepNumber + 1)) st.savedChain
            requiredChain := (findRequired a.request).dedup.foldl
              (fun m k0 => pushAssoc m (String.mk k0) (st.stepNumber + 1)) st.requiredChain
            steps := st.steps ++ [stepOf (st.stepNumber + 1) a] } := by
        rw [sumStep, if_neg]
        intro hcontra
        rcases hcontra with h | h
        · exact hmem h
        · rw [hsucc] at h
          cases h
      rw [List.foldl_cons, hstep, ih _, hret]
      simp only [List.length_cons, buildChains, numberSteps]
      congr 1
      · omega
      · rw [List.append_assoc]
        rfl

theorem getAssoc_some_mem {α : Type} :
    ∀ (l : List (String × α)) (k : String) (v : α), getAssoc l k = some v → (k, v) ∈ l := by
  intro l
  induction l with
  | nil => intro k v h; cases h
  | cons p tl ih =>
    intro k v h
    rw [getAssoc] at h
    split at h
    · rename_i heq
      injection h with h
      subst h
      subst heq
      simp
    · exact List.mem_cons_of_mem _ (ih k v h)

theorem validationFold_mono (presets : List String) (sc : List (String × Nat)) :
    ∀ (chain : List (String × List Nat)) (errs : List VErr) (e : VErr),
      e ∈ errs → e ∈ validationFold presets sc errs chain := by
  intro chain
  induction chain with
  | nil => intro errs e he; exact he
  | cons p rest ih =>
    intro errs e he
    rw [validationFold]
    split
    · exact ih errs e he
    · cases getAssoc sc p.1 with
      | none => exact ih _ e (by simp [he])
      | some s => exact ih _ e (by simp [he])

theorem validationFold_mem (presets : List String) (sc : List (String × Nat)) :
    ∀ (chain : List (String × List Nat)) (errs : List VErr) (name : String)
      (uses : List Nat),
      (name, uses) ∈ chain → name ∉ presets →
      (getAssoc sc name = none →
        VErr.neverSaved name uses ∈ validationFold presets sc errs chain) ∧
      (∀ S, getAssoc sc name = some S → ∀ U ∈ uses, U ≤ S →
        VErr.usedBeforeSaved name U S ∈ validationFold presets sc errs chain) := by
  intro chain
  induction chain with
  | nil =>
    intro errs name uses hmem
    simp at hmem
  | cons p rest ih =>
    intro errs name uses hmem hpre
    rcases List.mem_cons.1 hmem with hhead | htail
    · subst hhead
      constructor
      · intro hnone
        rw [validationFold, if_neg (by simpa using hpre), hnone]
        exact validationFold_mono presets sc rest _ _ (by simp)
      · intro S hS U hU hle
        rw [validationFold, if_neg (by simpa using hpre), hS]
        apply validationFold_mono presets sc rest
        simp only [List.mem_append, List.mem_map, List.mem_filter]
        right
        exact ⟨U, ⟨hU, by simpa using hle⟩, rfl⟩
    · have hrec := fun errs2 => ih errs2 name uses htail hpre
      constructor
      · intro hnone
        rw [validationFold]
        split
        · exact (hrec errs).1 hnone
        · cases getAssoc sc p.1 with
          | none => exact (hrec _).1 hnone
          | some s => exact (hrec _).1 hnone
      · intro S hS U hU hle
        rw [validationFold]
        split
        · exact (hrec errs).2 S hS U hU hle
        · cases getAssoc sc p.1 with
          | none => exact (hrec _).2 S hS U hU hle
          | some s => exact (hrec _).2 S hS U hU hle

/-- Claim C1: summary's validation pass, over the retained steps numbered
1..N in surviving order: the producer/consumer chains are exactly those of
the surviving sequence (a later save of a name overwrites its recorded
producer); for a required name outside the presets, a missing producer
yields a used-but-never-saved diagnostic quoting the using steps, and a
producer step S with a use at step U with U ≤ S yields a used-before-saved
diagnostic quoting U and S; diagnostics are collected, never fatal -- the
compiled step list is produced in all cases and does not depend on the
validation inputs. -/
theorem claim_C1 (presets : List String) (attempts : List AttemptM) (rm : List Nat) :
    ((attempts.foldl (sumStep rm) ⟨0, [], [], []⟩).savedChain
        = (buildChains 0 [] [] (retainedOf attempts rm)).1 ∧
      (attempts.foldl (sumStep rm) ⟨0, [], [], []⟩).requiredChain
        = (buildChains 0 [] [] (retainedOf attempts rm)).2) ∧
    (∀ (name : String) (uses : List Nat),
      getAssoc (attempts.foldl (sumStep rm) ⟨0, [], [], []⟩).requiredChain name = some uses →
      name ∉ presets →
      getAssoc (attempts.foldl (sumStep rm) ⟨0, [], [], []⟩).savedChain name = none →
      VErr.neverSaved name uses ∈ (summaryM presets attempts rm).validationErrors) ∧
    (∀ (name : String) (uses : List Nat) (S : Nat),
      getAssoc (attempts.foldl (sumStep rm) ⟨0, [], [], []⟩).requiredChain name = some uses →
      name ∉ presets →
      getAssoc (attempts.foldl (sumStep rm) ⟨0, [], [], []⟩).savedChain name = some S →
      ∀ U ∈ uses, U ≤ S →
      VErr.usedBeforeSaved name U S ∈ (summaryM presets attempts rm).validationErrors) ∧
    ((summaryM presets attempts rm).scenarioSteps
        = (attempts.foldl (sumStep rm) ⟨0, [], [], []⟩).steps ∧
      ∀ presets' : List String,
        (summaryM presets' attempts rm).scenarioSteps
          = (summaryM presets attempts rm).scenarioSteps) := by
  refine ⟨?_, ?_, ?_, rfl, fun _ => rfl⟩
  · rw [sumFold_spec rm attempts ⟨0, [], [], []⟩]
    exact ⟨rfl, rfl⟩
  · intro name uses hreq hpre hnone
    have hmem := getAssoc_some_mem _ name uses hreq
    exact (validationFold_mem presets _ _ [] name uses hmem hpre).1 hnone
  · intro name uses S hreq hpre hS U hU hle
    have hmem := getAssoc_some_mem _ name uses hreq
    exact (validationFold_mem presets _ _ [] name uses hmem hpre).2 S hS U hU hle

/-- Demo attempts for the compiler and validator claims. -/
def demoAttempt (i : Nat) (s : Bool) (req : JVal) (saved : JFields) : AttemptM :=
  { index := i
    operationId := "ClusterService_CreateCluster"
    requestType := "http"
    request := req
    resolvedRequest := req
    responseStatus := some 200
    responseBody := .obj .nil
    success := s
    error := none
    durationMs := 0
    savedVariables := saved
    saveConfig := none }

/-- Concrete instantiation of claim C1, after the spec's soundness test:
with retained step 2 consuming a variable saved only at step 3, summary
reports used-before-saved quoting steps 2 and 3, and still compiles all
three steps. -/
theorem claim_C1_witness :
    VErr.usedBeforeSaved "v" 2 3 ∈
      (summaryM [] [demoAttempt 0 true (.obj .nil) .nil,
        demoAttempt 1 true (.str "{v}") .nil,
        demoAttempt 2 true (.obj .nil) (JFields.cons "v" (.num 1) .nil)] []).validationErrors ∧
    (summaryM [] [demoAttempt 0 true (.obj .nil) .nil,
        demoAttempt 1 true (.str "{v}") .nil,
        demoAttempt 2 true (.obj .nil) (JFields.cons "v" (.num 1) .nil)] []).finalSteps = 3 := by
  constructor
  · exact (claim_C1 [] [demoAttempt 0 true (.obj .nil) .nil,
        demoAttempt 1 true (.str "{v}") .nil,
        demoAttempt 2 true (.obj .nil) (JFields.cons "v" (.num 1) .nil)] []).2.2.1
      "v" [2] 3 (by rfl) (by simp) (by rfl) 2 (by simp) (by omega)
  · rfl

/-- Claim C2: summary retains exactly the attempts whose index is outside
remove_indices and whose success flag is set, walks them in original
order, and builds exactly one step per retained attempt, named from the
1-based step number and the normalized operation id; in particular for
attempts success/failure/success with the third removed, exactly one step
derived from the first is produced and carries the step_1_ name. -/
theorem claim_C2 (presets : List String) (attempts : List AttemptM) (rm : List Nat) :
    ((summaryM presets attempts rm).scenarioSteps
        = numberSteps 0 (retainedOf attempts rm) ∧
      (summaryM presets attempts rm).finalSteps = (retainedOf attempts rm).length) ∧
    ((summaryM [] [demoAttempt 0 true (.obj .nil) .nil,
        demoAttempt 1 false (.obj .nil) .nil,
        demoAttempt 2 true (.obj .nil) .nil] [2]).scenarioSteps
      = [stepOf 1 (demoAttempt 0 true (.obj .nil) .nil)] ∧
     (stepOf 1 (demoAttempt 0 true (.obj .nil) .nil)).name = "step_1_createcluster") := by
  have hfold := sumFold_spec rm attempts ⟨0, [], [], []⟩
  have hlen : ∀ (s : Nat) (l : List AttemptM), (numberSteps s l).length = l.length := by
    intro s l
    induction l generalizing s with
    | nil => rfl
    | cons a tl ih => simp [numberSteps, ih]
  refine ⟨⟨?_, ?_⟩, by rfl, by rfl⟩
  · show (attempts.foldl (sumStep rm) ⟨0, [], [], []⟩).steps = _
    rw [hfold]
    rfl
  · show (attempts.foldl (sumStep rm) ⟨0, [], [], []⟩).steps.length = _
    rw [hfold]
    simp [hlen]

/-! ## The replay engine

SessionManager.rerun.  The compiled scenario file is an input: none stands
for a missing final YAML.  Each loaded step is paired with the result the
executor (execute_http / execute_cli / poll_until_ready) would return for
it.  A step with a positive retry budget, a cel condition and http type
takes the polling branch, which substitutes variables without environment
expansion and appends its attempt by hand; every other step goes through
the ordinary execute path. -/

structure StepResultM : Type where
  step : String
  success : Bool
  error : Option String
  saved : List String
  deriving DecidableEq

inductive RerunResultM : Type where
  | noScenario (error : String)
  | ran (success : Bool) (steps : List StepResultM) (finalVars : JFields) (session : SessionM)
  deriving DecidableEq

/-- One replay step. -/
def rerunStep (envF : JVal → JVal) (sess : SessionM) (step : StepM) (res : ExecResultM) :
    SessionM × AttemptM :=
  if step.maxRetries > 0 ∧ step.expectCel ≠ "" ∧ step.requestType = "http" then
    let resolved := substitute sess.vars step.request
    let es := if res.success then extractAndSave sess.vars res.body step.save
              else (sess.vars, JFields.nil)
    let attempt : AttemptM :=
      { index := sess.attempts.length
        operationId := step.operationId
        requestType := step.requestType
        request := step.request
        resolvedRequest := resolved
        responseStatus := res.statusCode
        responseBody := res.body
        success := res.success
        error := res.error
        durationMs := res.durationMs
        savedVariables := es.2
        saveConfig := step.save }
    ({ vars := es.1, attempts := sess.attempts ++ [attempt] }, attempt)
  else
    executeM envF sess
      { operationId := step.operationId
        request := step.request
        saveConfig := step.save
        requestType := step.requestType
        httpResult := res
        cliResult := res }

/-- The replay recursion: thread the session, emit one step result per
step in order. -/
def rerunSpec (envF : JVal → JVal) : SessionM → List (StepM × ExecResultM) →
    SessionM × List StepResultM
  | sess, [] => (sess, [])
  | sess, sr :: rest =>
    let sa := rerunStep envF sess sr.1 sr.2
    let fin := rerunSpec envF sa.1 rest
    (fin.1,
      { step := sr.1.name, success := sa.2.success, error := sa.2.error,
        saved := sa.2.savedVariables.keys } :: fin.2)

/-- SessionManager.rerun: fail without a compiled scenario, otherwise run
all steps from a fresh preset-seeded session, collecting per-step results
and the conjunction of their outcomes. -/
def rerunM (envF : JVal → JVal) (presets : JFields)
    (scenario : Option (List (StepM × ExecResultM))) : RerunResultM :=
  match scenario with
  | none => .noScenario "No final YAML file. Run summary first."
  | some steps =>
    let final := steps.foldl
      (fun (acc : SessionM × List StepResultM × Bool) sr =>
        let sa := rerunStep envF acc.1 sr.1 sr.2
        (sa.1,
         acc.2.1 ++ [{ step := sr.1.name, success := sa.2.success, error := sa.2.error,
                       saved := sa.2.savedVariables.keys }],
         acc.2.2 && sa.2.success))
      (freshSession presets, [], true)
    .ran final.2.2 final.2.1 final.1.vars final.1

theorem rerunFold_spec (envF : JVal → JVal) :
    ∀ (steps : List (StepM × ExecResultM)) (sess : SessionM) (results : List StepResultM)
      (allOk : Bool),
      steps.foldl
        (fun (acc : SessionM × List StepResultM × Bool) sr =>
          let sa := rerunStep envF acc.1 sr.1 sr.2
          (sa.1,
           acc.2.1 ++ [{ step := sr.1.name, success := sa.2.success, error := sa.2.error,
                         saved := sa.2.savedVariables.keys }],
           acc.2.2 && sa.2.success))
        (sess, results, allOk)
      = ((rerunSpec envF sess steps).1,
         results ++ (rerunSpec envF sess steps).2,
         allOk && (rerunSpec envF sess steps).2.all (fun r => r.success)) := by
  intro steps
  induction steps with
  | nil =>
    intro sess results allOk
    simp [rerunSpec]
  | cons sr rest ih =>
    intro sess results allOk
    rw [List.foldl_cons, ih]
    simp only [rerunSpec, List.all_cons, Prod.mk.injEq]
    refine ⟨trivial, ?_, ?_⟩
    · rw [List.append_assoc]
      rfl
    · rw [Bool.and_assoc]

theorem rerunSpec_len (envF : JVal → JVal) :
    ∀ (steps : List (StepM × ExecResultM)) (sess : SessionM),
      (rerunSpec envF sess steps).2.length = steps.length ∧
      (rerunSpec envF sess steps).2.map (fun r => r.step) = steps.map (fun p => p.1.name) ∧
      (rerunSpec envF sess steps).1.attempts.length = sess.attempts.length + steps.length := by
  intro steps
  induction steps with
  | nil => intro sess; simp [rerunSpec]
  | cons sr rest ih =>
    intro sess
    have hone : ((rerunStep envF sess sr.1 sr.2).1).attempts.length
        = sess.attempts.length + 1 := by
      rw [rerunStep]
      split
      · simp
      · show ((executeM envF sess _).1).attempts.length = _
        simp [executeM]
    obtain ⟨hL, hM, hA⟩ := ih (rerunStep envF sess sr.1 sr.2).1
    refine ⟨?_, ?_, ?_⟩
    · simp only [rerunSpec, List.length_cons, hL]
    · simp only [rerunSpec, List.map_cons, hM]
    · simp only [rerunSpec, List.length_cons]
      omega

/-- Claim C9: rerun with no compiled scenario returns a structured failure
carrying a descriptive error (and no session); otherwise every step runs in
file order from a fresh preset-seeded session, a failed step does not abort
the rest (one result per step, in order), the reported variables are the
final session's, and the top-level success flag is the conjunction of the
per-step outcomes. -/
theorem claim_C9 (envF : JVal → JVal) (presets : JFields)
    (steps : List (StepM × ExecResultM)) :
    rerunM envF presets none = .noScenario "No final YAML file. Run summary first." ∧
    (∀ (s : Bool) (rs : List StepResultM) (fv : JFields) (sess : SessionM),
      rerunM envF presets (some steps) = .ran s rs fv sess →
      rs = (rerunSpec envF (freshSession presets) steps).2 ∧
      rs.length = steps.length ∧
      rs.map (fun r => r.step) = steps.map (fun p => p.1.name) ∧
      s = rs.all (fun r => r.success) ∧
      fv = sess.vars ∧
      sess.attempts.length = steps.length) ∧
    rerunM envF presets (some []) = .ran true [] presets (freshSession presets) := by
  have hfold := rerunFold_spec envF steps (freshSession presets) [] true
  have hlen := rerunSpec_len envF steps (freshSession presets)
  refine ⟨rfl, ?_, rfl⟩
  intro s rs fv sess hran
  have hval : rerunM envF presets (some steps)
      = .ran (true && (rerunSpec envF (freshSession presets) steps).2.all (fun r => r.success))
          ([] ++ (rerunSpec envF (freshSession presets) steps).2)
          (rerunSpec envF (freshSession presets) steps).1.vars
          (rerunSpec envF (freshSession presets) steps).1 := by
    rw [rerunM]
    simp only [hfold]
  rw [hval] at hran
  injection hran with hs hrs hfv hsess
  subst hs
  subst hfv
  subst hsess
  have hrs2 : rs = (rerunSpec envF (freshSession presets) steps).2 := by
    rw [← hrs]
    simp
  subst hrs2
  refine ⟨rfl, hlen.1, hlen.2.1, ?_, rfl, ?_⟩
  · simp
  · have h2 := hlen.2.2
    simpa [freshSession] using h2

def demoStep : StepM :=
  { name := "step_1_get", operationId := "Svc_Get", requestType := "http",
    request := .obj .nil, expectStatus := some 200, expectCel := "", save := none,
    maxRetries := 0, delayAfter := 0 }

def demoFail : ExecResultM :=
  { success := false, statusCode := some 500, body := .obj .nil, error := some "boom",
    durationMs := 3 }

def demoOk : ExecResultM :=
  { success := true, statusCode := some 200, body := .obj .nil, error := none,
    durationMs := 1 }

def demoRerunSession : SessionM :=
  { vars := JFields.nil,
    attempts := [
      { index := 0, operationId := "Svc_Get", requestType := "http", request := .obj .nil,
        resolvedRequest := .obj .nil, responseStatus := some 500, responseBody := .obj .nil,
        success := false, error := some "boom", durationMs := 3, savedVariables := .nil,
        saveConfig := none },
      { index := 1, operationId := "Svc_Get", requestType := "http", request := .obj .nil,
        resolvedRequest := .obj .nil, responseStatus := some 200, responseBody := .obj .nil,
        success := true, error := none, durationMs := 1, savedVariables := .nil,
        saveConfig := none }] }

/-- Concrete instantiation of claim C9: a failing first step does not
abort the second; both results are reported in order and the overall flag
is false. -/
theorem claim_C9_witness :
    ([{ step := "step_1_get", success := false, error := some "boom", saved := ([] : List String) },
      { step := "step_1_get", success := true, error := none, saved := [] }] :
        List StepResultM).length = 2 ∧
    (false : Bool) =
      ([{ step := "step_1_get", success := false, error := some "boom", saved := ([] : List String) },
        { step := "step_1_get", success := true, error := none, saved := [] }] :
          List StepResultM).all (fun r => r.success) ∧
    demoRerunSession.attempts.length = 2 := by
  have h := (claim_C9 (fun v => v) JFields.nil [(demoStep, demoFail), (demoStep, demoOk)]).2.1
    false
    [{ step := "step_1_get", success := false, error := some "boom", saved := [] },
     { step := "step_1_get", success := true, error := none, saved := [] }]
    JFields.nil demoRerunSession (by decide)
  exact ⟨h.2.1, h.2.2.2.1, h.2.2.2.2.2⟩

/-! ## Substitution closure

Machinery for claim C5.  A string is scan-clean (scanOk) when between any
opening brace and the first closing brace after it no second opening brace
occurs; strings whose placeholder names are all brace-free are scan-clean,
their complete tokens are exactly the scanner's matches, and replacing a
token by brace-free text preserves scan-cleanliness while only ever
removing tokens.  Folding the replacement over all found names therefore
leaves no complete token at all. -/

/-- Scan-cleanliness: at every suffix that starts with an opening brace
and still contains a closing brace, the run up to the first closing brace
is free of opening braces. -/
def scanOk : List Char → Bool
  | [] => true
  | c :: r =>
    (if c = '{' then
      (if r.any (fun d => d = '}') then
        (r.takeWhile (fun d => d ≠ '}')).all (fun d => d ≠ '{')
      else true)
    else true) && scanOk r

theorem scanOk_append_right (x : List Char) :
    ∀ y, scanOk (x ++ y) = true → scanOk y = true := by
  induction x with
  | nil => intro y h; exact h
  | cons c r ih =>
    intro y h
    rw [List.cons_append, scanOk, Bool.and_eq_true] at h
    exact ih y h.2

theorem scanOk_append_nolb (w : List Char) (hw : ∀ c ∈ w, c ≠ '{') :
    ∀ z, scanOk z = true → scanOk (w ++ z) = true := by
  induction w with
  | nil => intro z h; exact h
  | cons c r ih =>
    intro z h
    rw [List.cons_append, scanOk, Bool.and_eq_true]
    refine ⟨?_, ih (fun d hd => hw d (by simp [hd])) z h⟩
    rw [if_neg (hw c (by simp))]

theorem occursB_append_left (p w : List Char) :
    ∀ z, occursB p z = true → occursB p (w ++ z) = true := by
  induction w with
  | nil => intro z h; exact h
  | cons c r ih =>
    intro z h
    rw [List.cons_append, occursB, Bool.or_eq_true]
    exact Or.inr (ih z h)

theorem occursB_lb_append (q w : List Char) (hw : ∀ c ∈ w, c ≠ '{') :
    ∀ z, occursB ('{' :: q) (w ++ z) = occursB ('{' :: q) z := by
  induction w with
  | nil => intro z; rfl
  | cons c r ih =>
    intro z
    rw [List.cons_append, occursB, ih (fun d hd => hw d (by simp [hd]))]
    have : startsList ('{' :: q) (c :: (r ++ z)) = false := by
      rw [startsList]
      have := hw c (by simp)
      simp [Ne.symm this]
    rw [this]
    simp

/-- The first-closing-brace decomposition of a string that contains one. -/
theorem rbrace_decomp (r : List Char) (hr : r.any (fun d => d = '}') = true) :
    r = r.takeWhile (fun d => d ≠ '}') ++
      '}' :: r.drop ((r.takeWhile (fun d => d ≠ '}')).length + 1) := by
  induction r with
  | nil => simp at hr
  | cons c t ih =>
    by_cases hc : c = '}'
    · subst hc
      simp [List.takeWhile_cons]
    · rw [List.any_cons, Bool.or_eq_true] at hr
      have ht : t.any (fun d => d = '}') = true := by
        rcases hr with h | h
        · simp [hc] at h
        · exact h
      have := ih ht
      rw [List.takeWhile_cons, if_pos (by simp [hc])]
      simp only [List.length_cons, List.cons_append, List.drop_succ_cons]
      exact congrArg (c :: ·) this

theorem takeWhile_no_rbrace (r : List Char) :
    ∀ c ∈ r.takeWhile (fun d => d ≠ '}'), c ≠ '}' := by
  intro c hc
  have := List.mem_takeWhile_imp hc
  simpa using this

/-- Matching a clean token against a string whose first closing brace sits
right after a closing-brace-free run pins the name to that run. -/
theorem token_head_match (m run z : List Char) (hm : ∀ c ∈ m, c ≠ '}')
    (hrun : ∀ c ∈ run, c ≠ '}') :
    startsList (m ++ ['}']) (run ++ '}' :: z) = true → m = run := by
  induction m generalizing run with
  | nil =>
    intro h
    cases run with
    | nil => rfl
    | cons c rr =>
      rw [List.nil_append, List.cons_append, startsList, Bool.and_eq_true] at h
      have := hrun c (by simp)
      simp only [decide_eq_true_eq] at h
      exact absurd h.1.symm this
  | cons a mm ih =>
    intro h
    cases run with
    | nil =>
      rw [List.cons_append, List.nil_append, startsList, Bool.and_eq_true] at h
      have := hm a (by simp)
      simp only [decide_eq_true_eq] at h
      exact absurd h.1 this
    | cons c rr =>
      rw [List.cons_append, List.cons_append, startsList, Bool.and_eq_true] at h
      simp only [decide_eq_true_eq] at h
      have := ih rr (fun d hd => hm d (by simp [hd])) (fun d hd => hrun d (by simp [hd])) h.2
      rw [h.1, this]

theorem startsList_self_append (x z : List Char) : startsList x (x ++ z) = true := by
  rw [startsList_iff]
  exact ⟨z, rfl⟩

theorem startsList_mem (p s : List Char) (h : startsList p s = true) :
    ∀ c ∈ p, c ∈ s := by
  obtain ⟨t, ht⟩ := (startsList_iff p s).1 h
  intro c hc
  rw [← ht]
  simp [hc]

/-- Replacement of a brace-opened pattern passes over opening-brace-free
text untouched. -/
theorem replaceAll_passthrough (q v : List Char) :
    ∀ (w : List Char), (∀ c ∈ w, c ≠ '{') →
      ∀ z, replaceAll (w ++ z) ('{' :: q) v = w ++ replaceAll z ('{' :: q) v := by
  intro w
  induction w with
  | nil => intro _ z; rfl
  | cons c r ih =>
    intro hw z
    rw [List.cons_append, replaceAll_cons]
    have hns : startsList ('{' :: q) (c :: (r ++ z)) = false := by
      rw [startsList]
      have := hw c (by simp)
      simp [Ne.symm this]
    rw [if_neg (by simp [hns]), ih (fun d hd => hw d (by simp [hd])) z]
    simp

/-- A pattern containing a closing brace never occurs in a string without
one, so replacement is the identity there. -/
theorem replaceAll_no_rbrace (pat v : List Char) (hp : '}' ∈ pat) :
    ∀ r, ('}' ∉ r) → replaceAll r pat v = r := by
  intro r
  induction r with
  | nil => intro _; rfl
  | cons c t ih =>
    intro hr
    rw [replaceAll_cons]
    have hns : ¬ (pat ≠ [] ∧ startsList pat (c :: t) = true) := by
      rintro ⟨-, hs⟩
      exact hr (startsList_mem pat (c :: t) hs '}' hp)
    rw [if_neg hns, ih (fun hc => hr (by simp [hc]))]

/-- The scanner ignores opening-brace-free text. -/
theorem findNames_append_nolb (w : List Char) (hw : ∀ c ∈ w, c ≠ '{') :
    ∀ z, findNames (w ++ z) = findNames z := by
  induction w with
  | nil => intro z; rfl
  | cons c r ih =>
    intro z
    rw [List.cons_append, findNames_cons, if_neg (hw c (by simp)),
      ih (fun d hd => hw d (by simp [hd]))]

theorem tokOf_rbrace (n : List Char) : '}' ∈ tokOf n := by
  simp [tokOf]

theorem braceFree_iff (s : List Char) :
    braceFree s = true ↔ ∀ c ∈ s, c ≠ '{' ∧ c ≠ '}' := by
  rw [braceFree, List.all_eq_true]
  constructor
  · intro h c hc
    have := h c hc
    simpa using this
  · intro h c hc
    have := h c hc
    simpa using this

theorem any_rbrace_of_takeWhile_lt (r : List Char)
    (h : (r.takeWhile (fun d => d ≠ '}')).length < r.length) :
    r.any (fun d => d = '}') = true := by
  induction r with
  | nil => simp at h
  | cons c t ih =>
    by_cases hc : c = '}'
    · simp [hc]
    · rw [List.takeWhile_cons, if_pos (by simp [hc])] at h
      simp only [List.length_cons] at h
      rw [List.any_cons, Bool.or_eq_true]
      exact Or.inr (ih (by omega))

theorem rbrace_len_lt (r : List Char) (hr : r.any (fun d => d = '}') = true) :
    (r.takeWhile (fun d => d ≠ '}')).length < r.length := by
  have hd := rbrace_decomp r hr
  conv_rhs => rw [hd]
  simp only [List.length_append, List.length_cons]
  omega

/-- Strings all of whose scanner matches are brace-free are scan-clean. -/
theorem scanner_scanOk : ∀ (N : Nat) (s : List Char), s.length ≤ N →
    (∀ n ∈ findNames s, braceFree n = true) → scanOk s = true := by
  intro N
  induction N with
  | zero =>
    intro s hs _
    have : s = [] := List.eq_nil_of_length_eq_zero (Nat.le_zero.1 hs)
    subst this
    rfl
  | succ N ih =>
    intro s hs hn
    cases s with
    | nil => rfl
    | cons c r =>
      simp only [List.length_cons] at hs
      rw [findNames_cons] at hn
      by_cases hc : c = '{'
      · rw [if_pos hc] at hn
        by_cases hmatch : (r.takeWhile (fun d => d ≠ '}')) ≠ [] ∧
            (r.takeWhile (fun d => d ≠ '}')).length < r.length
        · rw [if_pos hmatch] at hn
          have hrunbf : braceFree (r.takeWhile (fun d => d ≠ '}')) = true :=
            hn _ (by simp)
          have hany : r.any (fun d => d = '}') = true :=
            any_rbrace_of_takeWhile_lt r hmatch.2
          have hdec := rbrace_decomp r hany
          have hulen : (r.drop ((r.takeWhile (fun d => d ≠ '}')).length + 1)).length ≤ N := by
            simp only [List.length_drop]
            omega
          have hu : scanOk (r.drop ((r.takeWhile (fun d => d ≠ '}')).length + 1)) = true :=
            ih _ hulen (fun n hn2 => hn n (List.mem_cons_of_mem _ hn2))
          rw [scanOk, Bool.and_eq_true]
          constructor
          · rw [if_pos hc, if_pos hany, List.all_eq_true]
            intro d hd
            have := (braceFree_iff _).1 hrunbf d hd
            simp [this.1]
          · conv_lhs => rw [hdec]
            apply scanOk_append_nolb
            · intro d hd
              exact ((braceFree_iff _).1 hrunbf d hd).1
            · rw [scanOk, Bool.and_eq_true]
              exact ⟨by rw [if_neg (by decide)], hu⟩
        · rw [if_neg hmatch] at hn
          have hr : scanOk r = true := ih r (by omega) hn
          rw [scanOk, Bool.and_eq_true]
          refine ⟨?_, hr⟩
          rw [if_pos hc]
          by_cases hany : r.any (fun d => d = '}') = true
          · rw [if_pos hany]
            have hlt := rbrace_len_lt r hany
            have hnil : (r.takeWhile (fun d => d ≠ '}')) = [] := by
              by_contra hcon
              exact hmatch ⟨hcon, hlt⟩
            rw [hnil]
            rfl
          · rw [if_neg hany]
      · rw [if_neg hc] at hn
        have hr : scanOk r = true := ih r (by omega) hn
        rw [scanOk, Bool.and_eq_true]
        exact ⟨by rw [if_neg hc], hr⟩

/-- Every complete brace-free token of such a string is one of the
scanner's matches. -/
theorem scanner_tok : ∀ (N : Nat) (s : List Char), s.length ≤ N →
    (∀ n ∈ findNames s, braceFree n = true) →
    ∀ m, m ≠ [] → braceFree m = true → occursB (tokOf m) s = true → m ∈ findNames s := by
  intro N
  induction N with
  | zero =>
    intro s hs _ m _ _ hocc
    have : s = [] := List.eq_nil_of_length_eq_zero (Nat.le_zero.1 hs)
    subst this
    cases hocc
  | succ N ih =>
    intro s hs hn m hm hmbf hocc
    cases s with
    | nil => cases hocc
    | cons c r =>
      simp only [List.length_cons] at hs
      rw [occursB, Bool.or_eq_true] at hocc
      rcases hocc with hstart | htail
      · rw [tokOf] at hstart
        simp only [startsList, Bool.and_eq_true, decide_eq_true_eq] at hstart
        obtain ⟨hcc, hrest⟩ := hstart
        have hc : c = '{' := hcc.symm
        subst hc
        by_cases hany : r.any (fun d => d = '}') = true
        · have hdec := rbrace_decomp r hany
          have hmr : m = r.takeWhile (fun d => d ≠ '}') := by
            apply token_head_match m _ _
              (fun d hd => ((braceFree_iff _).1 hmbf d hd).2)
              (takeWhile_no_rbrace r)
            rw [← hdec]
            exact hrest
          have hlt := rbrace_len_lt r hany
          rw [findNames_cons, if_pos rfl, if_pos ⟨by rw [← hmr]; exact hm, hlt⟩]
          rw [hmr]
          simp
        · exfalso
          apply hany
          obtain ⟨t, ht⟩ := (startsList_iff _ _).1 hrest
          rw [List.any_eq_true]
          refine ⟨'}', ?_, by simp⟩
          rw [← ht]
          simp
      · rw [findNames_cons]
        by_cases hc : c = '{'
        · rw [if_pos hc]
          by_cases hmatch : (r.takeWhile (fun d => d ≠ '}')) ≠ [] ∧
              (r.takeWhile (fun d => d ≠ '}')).length < r.length
          · rw [if_pos hmatch]
            rw [findNames_cons, if_pos hc, if_pos hmatch] at hn
            have hrunbf : braceFree (r.takeWhile (fun d => d ≠ '}')) = true :=
              hn _ (by simp)
            have hany : r.any (fun d => d = '}') = true :=
              any_rbrace_of_takeWhile_lt r hmatch.2
            have hdec := rbrace_decomp r hany
            have hfr : findNames r
                = findNames (r.drop ((r.takeWhile (fun d => d ≠ '}')).length + 1)) := by
              conv_lhs => rw [hdec]
              have : r.takeWhile (fun d => d ≠ '}') ++
                  '}' :: r.drop ((r.takeWhile (fun d => d ≠ '}')).length + 1)
                  = (r.takeWhile (fun d => d ≠ '}') ++ ['}']) ++
                    r.drop ((r.takeWhile (fun d => d ≠ '}')).length + 1) := by
                simp
              rw [this]
              apply findNames_append_nolb
              intro d hd
              simp only [List.mem_append, List.mem_singleton] at hd
              rcases hd with hd | hd
              · exact ((braceFree_iff _).1 hrunbf d hd).1
              · subst hd; decide
            have hmem := ih r (by omega)
              (by
                rw [hfr]
                intro n hn2
                exact hn n (List.mem_cons_of_mem _ hn2))
              m hm hmbf htail
            rw [hfr] at hmem
            exact List.mem_cons_of_mem _ hmem
          · rw [if_neg hmatch]
            rw [findNames_cons, if_pos hc, if_neg hmatch] at hn
            exact ih r (by omega) hn m hm hmbf htail
        · rw [if_neg hc]
          rw [findNames_cons, if_neg hc] at hn
          exact ih r (by omega) hn m hm hmbf htail

theorem tokOf_cons (n : List Char) : tokOf n = '{' :: (n ++ ['}']) := rfl

theorem tokOf_ne_nil (n : List Char) : tokOf n ≠ [] := by
  rw [tokOf_cons]
  simp

theorem any_rbrace_false_iff (r : List Char) :
    r.any (fun d => d = '}') = false ↔ '}' ∉ r := by
  constructor
  · intro h hc
    have h2 : r.any (fun d => d = '}') = true := List.any_eq_true.2 ⟨'}', hc, by simp⟩
    rw [h] at h2
    exact Bool.false_ne_true h2
  · intro h
    rcases hb : r.any (fun d => d = '}') with _ | _
    · rfl
    · obtain ⟨x, hx, hpx⟩ := List.any_eq_true.1 hb
      simp only [decide_eq_true_eq] at hpx
      subst hpx
      exact absurd hx h

/-- Replacing one brace-free-named token by brace-free text preserves
scan-cleanliness and only removes tokens: any complete token of the result
was a token of the input and is not the replaced name. -/
theorem replaceTok_spec : ∀ (N : Nat) (t : List Char), t.length ≤ N →
    ∀ (n v : List Char), n ≠ [] → braceFree n = true → (∀ c ∈ v, c ≠ '{' ∧ c ≠ '}') →
    scanOk t = true →
    scanOk (replaceAll t (tokOf n) v) = true ∧
    (∀ m, m ≠ [] → braceFree m = true →
      occursB (tokOf m) (replaceAll t (tokOf n) v) = true →
      occursB (tokOf m) t = true ∧ m ≠ n) := by
  intro N
  induction N with
  | zero =>
    intro t ht n v _ _ _ _
    have : t = [] := List.eq_nil_of_length_eq_zero (Nat.le_zero.1 ht)
    subst this
    exact ⟨rfl, fun m _ _ hocc => by cases hocc⟩
  | succ N ih =>
    intro t ht n v hn hnbf hvbf hscan
    cases t with
    | nil => exact ⟨rfl, fun m _ _ hocc => by cases hocc⟩
    | cons c r =>
      simp only [List.length_cons] at ht
      by_cases hst : startsList (tokOf n) (c :: r) = true
      · obtain ⟨u, hu⟩ := (startsList_iff _ _).1 hst
        have hdrop : (c :: r).drop (tokOf n).length = u := by
          rw [← hu, List.drop_left]
        have hres : replaceAll (c :: r) (tokOf n) v
            = v ++ replaceAll u (tokOf n) v := by
          rw [replaceAll_cons, if_pos ⟨tokOf_ne_nil n, hst⟩, hdrop]
        have hulen : u.length ≤ N := by
          have := congrArg List.length hu
          simp only [List.length_append, List.length_cons, tokOf] at this
          omega
        have huscan : scanOk u = true := by
          apply scanOk_append_right (tokOf n)
          rw [hu]
          exact hscan
        obtain ⟨ihs, iht⟩ := ih u hulen n v hn hnbf hvbf huscan
        constructor
        · rw [hres]
          exact scanOk_append_nolb v (fun d hd => (hvbf d hd).1) _ ihs
        · intro m hm hmbf hocc
          rw [hres, tokOf_cons, occursB_lb_append _ v (fun d hd => (hvbf d hd).1)] at hocc
          rw [← tokOf_cons] at hocc
          obtain ⟨h1, h2⟩ := iht m hm hmbf hocc
          refine ⟨?_, h2⟩
          rw [← hu]
          exact occursB_append_left _ _ u h1
      · have hres : replaceAll (c :: r) (tokOf n) v
            = c :: replaceAll r (tokOf n) v := by
          rw [replaceAll_cons, if_neg (by simp [hst])]
        rw [scanOk, Bool.and_eq_true] at hscan
        obtain ⟨hhead, hscr⟩ := hscan
        obtain ⟨ihs, iht⟩ := ih r (by omega) n v hn hnbf hvbf hscr
        by_cases hc : c = '{'
        · by_cases hany : r.any (fun d => d = '}') = true
          · have hdec := rbrace_decomp r hany
            have hrunlb : ∀ d ∈ r.takeWhile (fun d => d ≠ '}'), d ≠ '{' := by
              rw [if_pos hc, if_pos hany, List.all_eq_true] at hhead
              intro d hd
              have := hhead d hd
              simpa using this
            have hpass : replaceAll r (tokOf n) v
                = r.takeWhile (fun d => d ≠ '}') ++
                  '}' :: replaceAll (r.drop ((r.takeWhile (fun d => d ≠ '}')).length + 1))
                    (tokOf n) v := by
              conv_lhs => rw [hdec]
              have hsplit : r.takeWhile (fun d => d ≠ '}') ++
                  '}' :: r.drop ((r.takeWhile (fun d => d ≠ '}')).length + 1)
                  = (r.takeWhile (fun d => d ≠ '}') ++ ['}']) ++
                    r.drop ((r.takeWhile (fun d => d ≠ '}')).length + 1) := by
                simp
              rw [hsplit, tokOf_cons, replaceAll_passthrough _ v _
                (by
                  intro d hd
                  simp only [List.mem_append, List.mem_singleton] at hd
                  rcases hd with hd | hd
                  · exact hrunlb d hd
                  · subst hd; decide)]
              rw [← tokOf_cons]
              simp
            constructor
            · rw [hres, scanOk, Bool.and_eq_true]
              refine ⟨?_, ihs⟩
              rw [if_pos hc]
              have hanyR : (replaceAll r (tokOf n) v).any (fun d => d = '}') = true := by
                rw [hpass, List.any_eq_true]
                exact ⟨'}', by simp, by simp⟩
              rw [if_pos hanyR, hpass]
              rw [takeWhile_append_all _ _ _
                (by
                  intro d hd
                  have := takeWhile_no_rbrace r d hd
                  simpa using this)]
              rw [List.takeWhile_cons, if_neg (by simp)]
              rw [List.all_eq_true]
              intro d hd
              simp only [List.append_nil] at hd
              have := hrunlb d hd
              simpa using this
            · intro m hm hmbf hocc
              rw [hres, occursB, Bool.or_eq_true] at hocc
              rcases hocc with hstok | htok
              · rw [tokOf] at hstok
                simp only [startsList, Bool.and_eq_true, decide_eq_true_eq] at hstok
                obtain ⟨-, hrest⟩ := hstok
                rw [hpass] at hrest
                have hmr : m = r.takeWhile (fun d => d ≠ '}') :=
                  token_head_match m _ _
                    (fun d hd => ((braceFree_iff _).1 hmbf d hd).2)
                    (takeWhile_no_rbrace r) hrest
                have hr2 : c :: r = tokOf m ++
                    r.drop ((r.takeWhile (fun d => d ≠ '}')).length + 1) := by
                  rw [tokOf_cons, hc, hmr]
                  conv_lhs => rw [hdec]
                  simp
                have hstart2 : startsList (tokOf m) (c :: r) = true := by
                  rw [hr2]
                  exact startsList_self_append _ _
                have hocc2 : occursB (tokOf m) (c :: r) = true := by
                  rw [occursB, Bool.or_eq_true]
                  exact Or.inl hstart2
                refine ⟨hocc2, ?_⟩
                intro hcontra
                subst hcontra
                exact hst hstart2
              · obtain ⟨h1, h2⟩ := iht m hm hmbf htok
                refine ⟨?_, h2⟩
                rw [occursB, Bool.or_eq_true]
                exact Or.inr h1
          · have hnor : '}' ∉ r := (any_rbrace_false_iff r).1 (by
              rcases hb : r.any (fun d => d = '}') with _ | _
              · rfl
              · exact absurd hb hany)
            have hid : replaceAll r (tokOf n) v = r :=
              replaceAll_no_rbrace (tokOf n) v (tokOf_rbrace n) r hnor
            rw [hres, hid]
            constructor
            · rw [scanOk, Bool.and_eq_true]
              exact ⟨hhead, hscr⟩
            · intro m hm hmbf hocc
              refine ⟨hocc, ?_⟩
              intro hcontra
              subst hcontra
              rw [occursB, Bool.or_eq_true] at hocc
              rcases hocc with hstok | htok
              · exact hst hstok
              · obtain ⟨a, b, hab⟩ := (occursB_iff _ _).1 htok
                apply hnor
                rw [hab]
                have : ('}' : Char) ∈ tokOf m := tokOf_rbrace m
                simp [this]
        · rw [hres]
          constructor
          · rw [scanOk, Bool.and_eq_true]
            exact ⟨by rw [if_neg hc], ihs⟩
          · intro m hm hmbf hocc
            rw [occursB, Bool.or_eq_true] at hocc
            rcases hocc with hstok | htok
            · exfalso
              rw [tokOf] at hstok
              simp only [startsList, Bool.and_eq_true, decide_eq_true_eq] at hstok
              exact hc hstok.1.symm
            · obtain ⟨h1, h2⟩ := iht m hm hmbf htok
              refine ⟨?_, h2⟩
              rw [occursB, Bool.or_eq_true]
              exact Or.inr h1

theorem JFields.get_some_mem_keys : ∀ (fs : JFields) (k : String) (v : JVal),
    JFields.get fs k = some v → k ∈ JFields.keys fs
  | .nil, _, _, h => by cases h
  | .cons k0 v0 tl, k, v, h => by
    rw [JFields.get] at h
    by_cases hk : k0 = k
    · subst hk
      simp [JFields.keys, JFields.entries]
    · rw [if_neg hk] at h
      have := JFields.get_some_mem_keys tl k v h
      simp only [JFields.keys, JFields.entries, List.map_cons, List.mem_cons]
      exact Or.inr this

theorem JFields.mem_keys_get_isSome : ∀ (fs : JFields) (k : String),
    k ∈ JFields.keys fs → (JFields.get fs k).isSome = true
  | .nil, k, h => by
    rw [jfields_keys_nil] at h
    cases h
  | .cons k0 v0 tl, k, h => by
    rw [JFields.get]
    by_cases hk : k0 = k
    · rw [if_pos hk]
      rfl
    · rw [if_neg hk]
      apply JFields.mem_keys_get_isSome tl
      simp only [JFields.keys, JFields.entries, List.map_cons, List.mem_cons] at h
      rcases h with h | h
      · exact absurd h.symm hk
      · exact h

/-- Folding the per-name replacement of substStr over a list of names that
are nonempty, brace-free and bound in the store to brace-free text preserves
scan-cleanliness and only removes tokens. -/
theorem foldTok (vars : JFields) : ∀ (ns : List (List Char)) (t : List Char),
    (∀ n ∈ ns, n ≠ [] ∧ braceFree n = true ∧
      ∃ w, JFields.get vars (String.mk n) = some w ∧
        ∀ c ∈ (pyStr w).data, c ≠ '{' ∧ c ≠ '}') →
    scanOk t = true →
    scanOk (ns.foldl
      (fun r n =>
        match JFields.get vars (String.mk n) with
        | some v => replaceAll r (tokOf n) (pyStr v).data
        | none => r) t) = true ∧
    (∀ m, m ≠ [] → braceFree m = true →
      occursB (tokOf m)
        (ns.foldl
          (fun r n =>
            match JFields.get vars (String.mk n) with
            | some v => replaceAll r (tokOf n) (pyStr v).data
            | none => r) t) = true →
      occursB (tokOf m) t = true ∧ m ∉ ns)
  | [], t, _, hscan => by
    constructor
    · exact hscan
    · intro m _ _ hocc
      exact ⟨hocc, List.not_mem_nil m⟩
  | n :: ns, t, hns, hscan => by
    obtain ⟨hn, hnbf, w, hget, hw⟩ := hns n (List.mem_cons_self n ns)
    obtain ⟨h1, h2⟩ := replaceTok_spec t.length t le_rfl n (pyStr w).data hn hnbf hw hscan
    have htail := foldTok vars ns (replaceAll t (tokOf n) (pyStr w).data)
      (fun x hx => hns x (List.mem_cons_of_mem _ hx)) h1
    rw [List.foldl_cons]
    simp only [hget]
    constructor
    · exact htail.1
    · intro m hm hmbf hocc
      obtain ⟨hoccR, hmns⟩ := htail.2 m hm hmbf hocc
      obtain ⟨hoccT, hmn⟩ := h2 m hm hmbf hoccR
      refine ⟨hoccT, ?_⟩
      intro hmem
      rcases List.mem_cons.1 hmem with hmem | hmem
      · exact hmn hmem
      · exact hmns hmem

/-- One string's substitution is token-closed: when the store's keys are
nonempty brace-free names, its values stringify without brace characters,
and every name the scanner finds in the string is a key of the store, the
substituted string holds no complete token of any nonempty brace-free
name at all. -/
theorem substStr_no_token (vars : JFields) (s : List Char)
    (hkeys : ∀ k ∈ JFields.keys vars, k.data ≠ [] ∧ braceFree k.data = true)
    (hvals : ∀ k w, JFields.get vars k = some w →
      ∀ c ∈ (pyStr w).data, c ≠ '{' ∧ c ≠ '}')
    (href : ∀ n ∈ findNames s, String.mk n ∈ JFields.keys vars) :
    ∀ m, m ≠ [] → braceFree m = true →
      occursB (tokOf m) (substStr vars s) = false := by
  have hns : ∀ n ∈ findNames s, n ≠ [] ∧ braceFree n = true ∧
      ∃ w, JFields.get vars (String.mk n) = some w ∧
        ∀ c ∈ (pyStr w).data, c ≠ '{' ∧ c ≠ '}' := by
    intro n hn
    have hkmem := href n hn
    have hks := hkeys _ hkmem
    have hsome := JFields.mem_keys_get_isSome vars (String.mk n) hkmem
    obtain ⟨w, hw⟩ := Option.isSome_iff_exists.1 hsome
    exact ⟨hks.1, hks.2, w, hw, hvals _ w hw⟩
  have hbf : ∀ n ∈ findNames s, braceFree n = true := fun n hn => (hns n hn).2.1
  have hscan := scanner_scanOk s.length s le_rfl hbf
  have hfold := foldTok vars (findNames s) s hns hscan
  intro m hm hmbf
  rcases hocc : occursB (tokOf m) (substStr vars s) with _ | _
  · rfl
  · exfalso
    have hocc2 : occursB (tokOf m)
        ((findNames s).foldl
          (fun r n =>
            match JFields.get vars (String.mk n) with
            | some v => replaceAll r (tokOf n) (pyStr v).data
            | none => r) s) = true := hocc
    obtain ⟨hoccS, hnot⟩ := hfold.2 m hm hmbf hocc2
    exact hnot (scanner_tok s.length s le_rfl hbf m hm hmbf hoccS)

mutual
/-- Whether the complete token of name m occurs in some string value of the
structure (dict keys are not substituted and are not inspected). -/
def hasTok (m : List Char) : JVal → Bool
  | .str s => occursB (tokOf m) s.data
  | .obj fs => hasTokFields m fs
  | .arr xs => hasTokArr m xs
  | _ => false
def hasTokArr (m : List Char) : JArr → Bool
  | .nil => false
  | .cons x tl => hasTok m x || hasTokArr m tl
def hasTokFields (m : List Char) : JFields → Bool
  | .nil => false
  | .cons _ v tl => hasTok m v || hasTokFields m tl
end

mutual
theorem substitute_no_token (vars : JFields)
    (hkeys : ∀ k ∈ JFields.keys vars, k.data ≠ [] ∧ braceFree k.data = true)
    (hvals : ∀ k w, JFields.get vars k = some w →
      ∀ c ∈ (pyStr w).data, c ≠ '{' ∧ c ≠ '}') :
    ∀ (v : JVal), (∀ n ∈ findRequired v, String.mk n ∈ JFields.keys vars) →
    ∀ m, m ≠ [] → braceFree m = true → hasTok m (substitute vars v) = false
  | .str s, href, m, hm, hmbf => by
    rw [substitute, hasTok]
    exact substStr_no_token vars s.data hkeys hvals href m hm hmbf
  | .obj fs, href, m, hm, hmbf => by
    rw [substitute, hasTok]
    exact substituteFields_no_token vars hkeys hvals fs href m hm hmbf
  | .arr xs, href, m, hm, hmbf => by
    rw [substitute, hasTok]
    exact substituteArr_no_token vars hkeys hvals xs href m hm hmbf
  | .null, _, _, _, _ => rfl
  | .bool _, _, _, _, _ => rfl
  | .num _, _, _, _, _ => rfl
theorem substituteArr_no_token (vars : JFields)
    (hkeys : ∀ k ∈ JFields.keys vars, k.data ≠ [] ∧ braceFree k.data = true)
    (hvals : ∀ k w, JFields.get vars k = some w →
      ∀ c ∈ (pyStr w).data, c ≠ '{' ∧ c ≠ '}') :
    ∀ (xs : JArr), (∀ n ∈ findRequiredArr xs, String.mk n ∈ JFields.keys vars) →
    ∀ m, m ≠ [] → braceFree m = true → hasTokArr m (substituteArr vars xs) = false
  | .nil, _, _, _, _ => rfl
  | .cons x tl, href, m, hm, hmbf => by
    have hx := substitute_no_token vars hkeys hvals x
      (fun n hn => href n (List.mem_append.2 (Or.inl hn))) m hm hmbf
    have ht := substituteArr_no_token vars hkeys hvals tl
      (fun n hn => href n (List.mem_append.2 (Or.inr hn))) m hm hmbf
    rw [substituteArr, hasTokArr, hx, ht]
    rfl
theorem substituteFields_no_token (vars : JFields)
    (hkeys : ∀ k ∈ JFields.keys vars, k.data ≠ [] ∧ braceFree k.data = true)
    (hvals : ∀ k w, JFields.get vars k = some w →
      ∀ c ∈ (pyStr w).data, c ≠ '{' ∧ c ≠ '}') :
    ∀ (fs : JFields), (∀ n ∈ findRequiredFields fs, String.mk n ∈ JFields.keys vars) →
    ∀ m, m ≠ [] → braceFree m = true → hasTokFields m (substituteFields vars fs) = false
  | .nil, _, _, _, _ => rfl
  | .cons k v tl, href, m, hm, hmbf => by
    have hx := substitute_no_token vars hkeys hvals v
      (fun n hn => href n (List.mem_append.2 (Or.inl hn))) m hm hmbf
    have ht := substituteFields_no_token vars hkeys hvals tl
      (fun n hn => href n (List.mem_append.2 (Or.inr hn))) m hm hmbf
    rw [substituteFields, hasTokFields, hx, ht]
    rfl
end

/-- C5 (amended): for a store whose keys are nonempty brace-free names and
whose values stringify without brace characters, if every name referenced by
a placeholder token anywhere in the request is present as a key of the
store, then no string value of the structure produced by
substitute_variables contains the complete token of any store key. -/
theorem claim_C5 (store : JFields) (req : JVal)
    (hkeys : ∀ k ∈ JFields.keys store, k.data ≠ [] ∧ braceFree k.data = true)
    (hvals : ∀ k w, JFields.get store k = some w →
      ∀ c ∈ (pyStr w).data, c ≠ '{' ∧ c ≠ '}')
    (href : ∀ n ∈ findRequired req, String.mk n ∈ JFields.keys store) :
    ∀ k ∈ JFields.keys store, hasTok k.data (substitute store req) = false := by
  intro k hk
  exact substitute_no_token store hkeys hvals req href k.data (hkeys k hk).1 (hkeys k hk).2

/-- The store mapping a to the literal text of b's token and b to x. -/
def cexStore : JFields :=
  JFields.cons "a" (JVal.str "\x7bb\x7d") (JFields.cons "b" (JVal.str "x") JFields.nil)

/-- A request that is just a's token. -/
def cexReq : JVal := JVal.str "\x7ba\x7d"

/-- C5 as stated fails: every name referenced in the request (only a) is a
key of the store, yet substitution rewrites the request to the stored value
of a, which is itself a complete token of the store key b. -/
theorem claim_C5_counterexample :
    findRequired cexReq = [['a']] ∧
    String.mk ['a'] = "a" ∧
    "a" ∈ JFields.keys cexStore ∧
    "b" ∈ JFields.keys cexStore ∧
    hasTok "b".data (substitute cexStore cexReq) = true := by
  refine ⟨rfl, rfl, ?_, ?_, ?_⟩
  · decide
  · decide
  · rfl

/-- A one-key store and a request referencing that key. -/
def wC5Store : JFields := JFields.cons "x" (JVal.str "ok") JFields.nil

/-- The request string x's token followed by literal text. -/
def wC5Req : JVal := JVal.str "\x7bx\x7dsub"

theorem claim_C5_witness :
    "x" ∈ JFields.keys wC5Store ∧
    hasTok "x".data (substitute wC5Store wC5Req) = false := by
  refine ⟨by decide, ?_⟩
  refine claim_C5 wC5Store wC5Req ?_ ?_ ?_ "x" (by decide)
  · decide
  · intro k w h
    simp only [wC5Store, JFields.get] at h
    by_cases hk : "x" = k
    · rw [if_pos hk] at h
      obtain rfl : JVal.str "ok" = w := Option.some.inj h
      decide
    · rw [if_neg hk] at h
      exact Option.noConfusion h
  · decide

end S2P
